import Mathlib

/-!
Verification of the kdtools header (inst/include/kdtools.h): an implicit
k-d tree over a random-access sequence of fixed-arity tuples.

Shallow embedding conventions:
* a tuple of arity k is a function from Fin k to the integers (the source
  is generic over linearly ordered numeric component types; the embedding
  instantiates them at the integers, and double arithmetic on derived
  quantities is idealized as exact arithmetic);
* the sequence is a Lean list, iterators are natural-number positions,
  and a half-open iterator range [first, last) is a pair of indices;
* distances: the source computes l2dist = sqrt (sum of squares) as a
  double and only ever compares distances with each other, with axis
  gaps, or with eps.  The embedding carries the squared distance (an
  integer) and performs each comparison in squared form; the bridge
  lemmas against Real.sqrt show each encoding equivalent to the source
  comparison on real numbers.
* recursion is expressed with an explicit fuel argument so that every
  definition is structurally recursive and kernel-reducible; each
  recursive call of the source strictly decreases the range size, so
  passing the range size (or the list length) as fuel is always enough.
  The fuel-zero equations coincide with the source behaviour on ranges
  of size zero, the only ranges that can exhaust that fuel;
* std nth_element is modelled by a full sort of the subrange with the
  same comparator (any conforming nth_element satisfies the contract
  consequences used here, and on the concrete counterexample inputs the
  post-condition determines the arrangement uniquely), and
  std partition is modelled by the stable partition of the subrange.
  These are single conforming refinements, proved to meet the ISO
  postconditions NthElemPost and PartitionPost below; properties of the
  level split itself (which arrangement inside the groups the library
  calls leave) are settled against those relational contracts, together
  with a model of the bidirectional two-pointer partition that mainstream
  standard libraries execute, not against the deterministic refinement.
-/

namespace Kdtools

/-- Fixed-arity tuples with integer components (std tuple of K numbers). -/
def Tup (k : Nat) : Type := Fin k → ℤ

instance : Inhabited (Tup k) := ⟨fun _ => 0⟩

instance : DecidableEq (Tup k) := fun a b =>
  decidable_of_iff (∀ j, a j = b j) ⟨funext, fun h j => congrFun h j⟩

/-- incr_wrap: the next discriminator axis, J = (I + 1) mod K. -/
def nextAxis {k : Nat} (i : Fin k) : Fin k :=
  ⟨(i.val + 1) % k, Nat.mod_lt _ i.pos⟩

/-- less_nth: compare two tuples on one axis. -/
def lessNth {k : Nat} (i : Fin k) (a b : Tup k) : Bool :=
  decide (a i < b i)

/-- Recursion core of kd_less: kd_less with I = i and N such that n = K - 1 - N
axes remain to be examined.  The non-last case recurses on equality at the
current axis; the last case compares the current axis with plain less-than. -/
def kdLessAux {k : Nat} (a b : Tup k) : Nat → Fin k → Bool
  | 0, i => decide (a i < b i)
  | n + 1, i => if a i = b i then kdLessAux a b n (nextAxis i) else decide (a i < b i)

/-- kd_less with starting axis I = i: the cyclic lexicographic strict order that
examines axes i, i+1, ..., i+K-1 (mod K). -/
def kdLess {k : Nat} (i : Fin k) (a b : Tup k) : Bool :=
  kdLessAux a b (k - 1) i

/-- all_less: strict componentwise less on every axis. -/
def allLess {k : Nat} (a b : Tup k) : Bool :=
  (List.finRange k).all fun j => decide (a j < b j)

/-- none_less: componentwise greater-or-equal on every axis. -/
def noneLess {k : Nat} (a b : Tup k) : Bool :=
  (List.finRange k).all fun j => decide (b j ≤ a j)

/-- contains: membership in the half-open axis-aligned box [lower, upper). -/
def containsB {k : Nat} (v lower upper : Tup k) : Bool :=
  noneLess v lower && allLess v upper

/-- sum_of_squares: the squared euclidean distance between two tuples. -/
def ssq {k : Nat} (a b : Tup k) : ℤ :=
  ((List.finRange k).map fun j => (a j - b j) ^ 2).sum

/-- l2dist, as the real number the source computes; used only in statements.
The algorithms below compare squared distances instead, which the bridge
lemmas show equivalent. -/
noncomputable def l2dist {k : Nat} (a b : Tup k) : ℝ :=
  Real.sqrt ((ssq a b : ℤ) : ℝ)

/-- Encoding of the comparison t < sqrt s for an integer t and a nonnegative
squared quantity s (used for the pruning tests abs(...) < min_dist and
abs(...) < min_dist - eps, rewritten as abs(...) + eps < min_dist). -/
def ltSqrt (t s : ℤ) : Bool :=
  decide (t < 0) || decide (t ^ 2 < s)

/-- Encoding of the comparison sqrt s < q (used for the eps shortcuts
min_dist < eps and sdist < eps of the eps nearest-neighbor variant). -/
def sqrtLt (s q : ℤ) : Bool :=
  decide (0 < q) && decide (s < q ^ 2)

/-! ### Order-theoretic facts about the cyclic lexicographic comparator -/

/-- Iterated successor axis. -/
def nextPow {k : Nat} : Nat → Fin k → Fin k
  | 0, i => i
  | m + 1, i => nextPow m (nextAxis i)

theorem nextPow_val {k : Nat} (m : Nat) (i : Fin k) :
    (nextPow m i).val = (i.val + m) % k := by
  induction m generalizing i with
  | zero => simp [nextPow, Nat.mod_eq_of_lt i.isLt]
  | succ m ih =>
    show (nextPow m (nextAxis i)).val = _
    rw [ih]
    show ((i.val + 1) % k + m) % k = _
    rw [Nat.mod_add_mod]
    ring_nf

/-- Every axis is reached from any starting axis within k - 1 steps. -/
theorem nextPow_surj {k : Nat} (i j : Fin k) :
    ∃ m, m ≤ k - 1 ∧ nextPow m i = j := by
  refine ⟨(j.val + k - i.val) % k, ?_, ?_⟩
  · have hk := i.pos
    have := Nat.mod_lt (j.val + k - i.val) hk
    omega
  · apply Fin.ext
    rw [nextPow_val, Nat.add_mod_mod]
    have hi := i.isLt
    have hj := j.isLt
    have h1 : i.val + (j.val + k - i.val) = j.val + k := by omega
    rw [h1, Nat.add_mod_right, Nat.mod_eq_of_lt hj]

theorem kdLessAux_irrefl {k : Nat} (a : Tup k) (n : Nat) (i : Fin k) :
    kdLessAux a a n i = false := by
  induction n generalizing i with
  | zero => simp [kdLessAux]
  | succ n ih => simp [kdLessAux, ih]

theorem kdLess_irrefl {k : Nat} (i : Fin k) (a : Tup k) : kdLess i a a = false :=
  kdLessAux_irrefl a _ i

theorem kdLessAux_asymm {k : Nat} {a b : Tup k} {n : Nat} {i : Fin k}
    (h : kdLessAux a b n i = true) : kdLessAux b a n i = false := by
  induction n generalizing i with
  | zero =>
    simp only [kdLessAux, decide_eq_true_eq] at h
    simp [kdLessAux, not_lt, le_of_lt h]
  | succ n ih =>
    by_cases hab : a i = b i
    · simp only [kdLessAux, if_pos hab] at h
      simp only [kdLessAux, if_pos hab.symm]
      exact ih h
    · simp only [kdLessAux, if_neg hab] at h
      have hba : ¬ b i = a i := fun h2 => hab h2.symm
      simp only [kdLessAux, if_neg hba]
      simp only [decide_eq_true_eq] at h
      simp [not_lt, le_of_lt h]

theorem kdLess_asymm {k : Nat} {i : Fin k} {a b : Tup k}
    (h : kdLess i a b = true) : kdLess i b a = false :=
  kdLessAux_asymm h

theorem kdLessAux_trans {k : Nat} {a b c : Tup k} {n : Nat} {i : Fin k}
    (h1 : kdLessAux a b n i = true) (h2 : kdLessAux b c n i = true) :
    kdLessAux a c n i = true := by
  induction n generalizing i with
  | zero =>
    simp only [kdLessAux, decide_eq_true_eq] at h1 h2 ⊢
    exact lt_trans h1 h2
  | succ n ih =>
    by_cases hab : a i = b i <;> by_cases hbc : b i = c i
    · have hac : a i = c i := hab.trans hbc
      simp only [kdLessAux, if_pos hab] at h1
      simp only [kdLessAux, if_pos hbc] at h2
      simp only [kdLessAux, if_pos hac]
      exact ih h1 h2
    · simp only [kdLessAux, if_neg hbc, decide_eq_true_eq] at h2
      have hac : ¬ a i = c i := by rw [hab]; exact ne_of_lt h2
      simp only [kdLessAux, if_neg hac, decide_eq_true_eq]
      rw [hab]; exact h2
    · simp only [kdLessAux, if_neg hab, decide_eq_true_eq] at h1
      have hac : ¬ a i = c i := by rw [← hbc]; exact ne_of_lt h1
      simp only [kdLessAux, if_neg hac, decide_eq_true_eq]
      rw [← hbc]; exact h1
    · simp only [kdLessAux, if_neg hab, decide_eq_true_eq] at h1
      simp only [kdLessAux, if_neg hbc, decide_eq_true_eq] at h2
      have hlt := lt_trans h1 h2
      simp only [kdLessAux, if_neg (ne_of_lt hlt), decide_eq_true_eq]
      exact hlt

theorem kdLess_trans {k : Nat} {i : Fin k} {a b c : Tup k}
    (h1 : kdLess i a b = true) (h2 : kdLess i b c = true) :
    kdLess i a c = true :=
  kdLessAux_trans h1 h2

theorem kdLessAux_eq_of_incomp {k : Nat} {a b : Tup k} {n : Nat} {i : Fin k}
    (h1 : kdLessAux a b n i = false) (h2 : kdLessAux b a n i = false) :
    ∀ m, m ≤ n → a (nextPow m i) = b (nextPow m i) := by
  induction n generalizing i with
  | zero =>
    intro m hm
    interval_cases m
    simp only [kdLessAux, decide_eq_false_iff_not, not_lt] at h1 h2
    exact le_antisymm h2 h1
  | succ n ih =>
    intro m hm
    by_cases hab : a i = b i
    · simp only [kdLessAux, if_pos hab] at h1
      simp only [kdLessAux, if_pos hab.symm] at h2
      match m with
      | 0 => exact hab
      | m' + 1 => exact ih h1 h2 m' (by omega)
    · simp only [kdLessAux, if_neg hab, decide_eq_false_iff_not, not_lt] at h1
      have hba : ¬ b i = a i := fun h => hab h.symm
      simp only [kdLessAux, if_neg hba, decide_eq_false_iff_not, not_lt] at h2
      exact absurd (le_antisymm h2 h1) hab

/-- The cyclic comparator is total up to full tuple equality: two mutually
incomparable tuples are equal on every axis. -/
theorem kdLess_eq_of_incomp {k : Nat} {i : Fin k} {a b : Tup k}
    (h1 : kdLess i a b = false) (h2 : kdLess i b a = false) : a = b := by
  funext j
  obtain ⟨m, hm, rfl⟩ := nextPow_surj i j
  exact kdLessAux_eq_of_incomp h1 h2 m hm

/-- If a is below b on the first axis examined, the cyclic compare is decided
immediately; in particular strict componentwise domination gives kdLess from
every starting axis. -/
theorem kdLess_of_allLt {k : Nat} {a b : Tup k} (h : ∀ j, a j < b j) (i : Fin k) :
    kdLess i a b = true := by
  unfold kdLess
  cases hk : k - 1 with
  | zero => simp [kdLessAux, h i]
  | succ n => simp [kdLessAux, ne_of_lt (h i), h i]

theorem kdLessAux_of_le_ne {k : Nat} {a b : Tup k} (hle : ∀ j, a j ≤ b j) :
    ∀ (n : Nat) (i : Fin k) (m : Nat), m ≤ n →
      a (nextPow m i) ≠ b (nextPow m i) → kdLessAux a b n i = true := by
  intro n
  induction n with
  | zero =>
    intro i m hm hne
    interval_cases m
    simp only [nextPow] at hne
    simp [kdLessAux, lt_of_le_of_ne (hle i) hne]
  | succ n ih =>
    intro i m hm hne
    by_cases hab : a i = b i
    · simp only [kdLessAux, if_pos hab]
      match m with
      | 0 => exact absurd hab hne
      | m' + 1 => exact ih (nextAxis i) m' (by omega) hne
    · simp [kdLessAux, if_neg hab, lt_of_le_of_ne (hle i) hab]

/-- Componentwise less-or-equal with inequality somewhere gives kdLess from
every starting axis. -/
theorem kdLess_of_le_ne {k : Nat} {a b : Tup k} (hle : ∀ j, a j ≤ b j)
    (hne : a ≠ b) (i : Fin k) : kdLess i a b = true := by
  have : ∃ j, a j ≠ b j := by
    by_contra h
    push_neg at h
    exact hne (funext h)
  obtain ⟨j, hj⟩ := this
  obtain ⟨m, hm, rfl⟩ := nextPow_surj i j
  exact kdLessAux_of_le_ne hle _ i m hm hj

theorem noneLess_iff {k : Nat} {a b : Tup k} :
    noneLess a b = true ↔ ∀ j, b j ≤ a j := by
  simp [noneLess, List.all_eq_true, List.mem_finRange]

theorem allLess_iff {k : Nat} {a b : Tup k} :
    allLess a b = true ↔ ∀ j, a j < b j := by
  simp [allLess, List.all_eq_true, List.mem_finRange]

theorem noneLess_refl {k : Nat} (a : Tup k) : noneLess a a = true :=
  noneLess_iff.mpr fun _ => le_refl _

theorem noneLess_antisymm {k : Nat} {a b : Tup k}
    (h1 : noneLess a b = true) (h2 : noneLess b a = true) : a = b := by
  funext j
  exact le_antisymm (noneLess_iff.mp h2 j) (noneLess_iff.mp h1 j)

theorem ssq_nonneg {k : Nat} (a b : Tup k) : 0 ≤ ssq a b := by
  unfold ssq
  apply List.sum_nonneg
  intro x hx
  simp only [List.mem_map] at hx
  obtain ⟨j, _, rfl⟩ := hx
  positivity

/-- Each squared axis gap is bounded by the squared distance. -/
theorem sq_axis_le_ssq {k : Nat} (a b : Tup k) (i : Fin k) :
    (a i - b i) ^ 2 ≤ ssq a b := by
  unfold ssq
  have hpos : ∀ x ∈ (List.finRange k).map fun j => (a j - b j) ^ 2, 0 ≤ x := by
    intro x hx
    simp only [List.mem_map] at hx
    obtain ⟨j, _, rfl⟩ := hx
    positivity
  exact List.single_le_sum hpos _ (List.mem_map_of_mem _ (List.mem_finRange i))

/-! ### Layout helpers and the k-d sort -/

/-- midpos: first + (last - first) / 2. -/
def midpos (f l : Nat) : Nat := f + (l - f) / 2

/-- Element at a position, with the inhabited default outside the list (an
iterator dereference; the lemmas establish which reads are in range). -/
def elt {k : Nat} (S : List (Tup k)) (j : Nat) : Tup k := S.getD j default

/-- std partition_point as the standard binary search: while len is nonzero,
probe first + len / 2; on a true probe drop the left half including the
probe, otherwise keep the left half.  The first argument is fuel; len
strictly decreases, so fuel = len always suffices, and fuel 0 is reached
only with len = 0 where the source also returns first. -/
def ppF (pred : Nat → Bool) : Nat → Nat → Nat → Nat
  | 0, f, _ => f
  | fuel + 1, f, len =>
    if len = 0 then f
    else
      let half := len / 2
      if pred (f + half) then ppF pred fuel (f + half + 1) (len - half - 1)
      else ppF pred fuel f half

/-- find_pivot: partition_point of [first, midpos) with the predicate
less_nth I (x, S midpos). -/
def findPivot {k : Nat} (S : List (Tup k)) (i : Fin k) (f l : Nat) : Nat :=
  ppF (fun j => lessNth i (elt S j) (elt S (midpos f l))) (midpos f l - f) f (midpos f l - f)

/-- The comparator passed to nth_element: the non-strict companion of
kd_less with starting axis i. -/
def kdLe {k : Nat} (i : Fin k) (a b : Tup k) : Prop := kdLess i b a = false

instance {k : Nat} (i : Fin k) : DecidableRel (kdLe (k := k) i) := fun _ _ =>
  instDecidableEqBool _ _

/-- The nth_element call of kd_sort, modelled as a full sort of the segment
by the kd_less comparator from axis i.  This is one conforming refinement
(nthElem_meets_contract proves it satisfies the ISO postcondition
NthElemPost; on the concrete counterexample inputs below the postcondition
even determines the arrangement uniquely); the source guarantees only the
postcondition, so facts about the arrangement inside [first, midpos) that
go beyond it are stated over NthElemPost, not over this refinement. -/
def nthElem {k : Nat} (i : Fin k) (seg : List (Tup k)) : List (Tup k) :=
  List.insertionSort (kdLe i) seg

/-- The pivot value selected by nth_element: the element placed at the
relative position midpos = length / 2 (std bind copies the dereferenced
pivot value before the partition call). -/
def pivotVal {k : Nat} (i : Fin k) (seg : List (Tup k)) : Tup k :=
  (nthElem i seg).getD (seg.length / 2) default

/-- The body of one kd_sort level on a segment of length at least 2:
nth_element, then the prefix [first, midpos) is partitioned by
x kd_less pivot-value.  Returns the partition groups and the suffix from
midpos on.  The stable filter-pair partition is one conforming refinement
of std partition (kdSortParts_meets_contract proves it satisfies the ISO
postcondition PartitionPost); the source guarantees only the
postcondition, so order-within-group facts are stated over PartitionPost,
not over this refinement. -/
def kdSortParts {k : Nat} (i : Fin k) (seg : List (Tup k)) :
    List (Tup k) × List (Tup k) × List (Tup k) :=
  let sorted := nthElem i seg
  let parts := (sorted.take (seg.length / 2)).partition fun x => kdLess i x (pivotVal i seg)
  (parts.1, parts.2, sorted.drop (seg.length / 2))

/-- kd_sort on a segment (the subrange [first, last) extracted as a list):
select the median, partition the left half, recurse on the two strictly
smaller pieces with the next axis.  The element between the two recursive
segments is the one left at the partition point, which neither recursive
call touches.  Fuel: every recursive segment is strictly shorter, so fuel
equal to the segment length suffices; fuel 0 is reached only for empty
segments, which the source leaves unchanged. -/
def kdSortSegF {k : Nat} : Nat → Fin k → List (Tup k) → List (Tup k)
  | 0, _, seg => seg
  | fuel + 1, i, seg =>
    if seg.length ≤ 1 then seg
    else
      let parts := kdSortParts i seg
      let rest := parts.2.1 ++ parts.2.2
      kdSortSegF fuel (nextAxis i) parts.1 ++
        rest.headD default :: kdSortSegF fuel (nextAxis i) rest.tail

/-- kd_sort over a whole sequence, starting from axis 0. -/
def kdSort {k : Nat} [NeZero k] (S : List (Tup k)) : List (Tup k) :=
  kdSortSegF S.length (0 : Fin k) S

/-! ### Descent queries -/

/-- kd_lower_bound.  Fuel 0 is reached only for empty ranges, where the
source also executes the base line none_less (elt S f) v, returning f = l
either way. -/
def kdLowerBoundF {k : Nat} (S : List (Tup k)) (v : Tup k) : Nat → Fin k → Nat → Nat → Nat
  | 0, _, f, l => if noneLess (elt S f) v then f else l
  | fuel + 1, i, f, l =>
    if 1 < l - f then
      let p := findPivot S i f l
      if noneLess (elt S p) v then kdLowerBoundF S v fuel (nextAxis i) f p
      else if allLess (elt S p) v then kdLowerBoundF S v fuel (nextAxis i) (p + 1) l
      else
        let it := kdLowerBoundF S v fuel (nextAxis i) f p
        if noneLess (elt S it) v then it
        else
          let it2 := kdLowerBoundF S v fuel (nextAxis i) (p + 1) l
          if noneLess (elt S it2) v then it2 else l
    else if noneLess (elt S f) v then f else l

/-- kd_upper_bound, symmetric to kd_lower_bound with all_less (v, x) and
none_less (v, x). -/
def kdUpperBoundF {k : Nat} (S : List (Tup k)) (v : Tup k) : Nat → Fin k → Nat → Nat → Nat
  | 0, _, f, l => if allLess v (elt S f) then f else l
  | fuel + 1, i, f, l =>
    if 1 < l - f then
      let p := findPivot S i f l
      if allLess v (elt S p) then kdUpperBoundF S v fuel (nextAxis i) f p
      else if noneLess v (elt S p) then kdUpperBoundF S v fuel (nextAxis i) (p + 1) l
      else
        let it := kdUpperBoundF S v fuel (nextAxis i) f p
        if allLess v (elt S it) then it
        else
          let it2 := kdUpperBoundF S v fuel (nextAxis i) (p + 1) l
          if allLess v (elt S it2) then it2 else l
    else if allLess v (elt S f) then f else l

/-- kd_nearest_neighbor, exact variant.  min_dist and sdist carry squared
distances; the comparison sdist < min_dist on squared values agrees with
the source comparison of square roots, and the pruning test
abs (v i - pivot i) < min_dist becomes ltSqrt of the gap against the
squared bound.  Fuel 0 is reached only for empty ranges, where the source
also returns first. -/
def kdNNF {k : Nat} (S : List (Tup k)) (v : Tup k) : Nat → Fin k → Nat → Nat → Nat
  | 0, _, f, _ => f
  | fuel + 1, i, f, l =>
    if 1 < l - f then
      let p := findPivot S i f l
      let searchLeft := lessNth i v (elt S p)
      let search :=
        if searchLeft then kdNNF S v fuel (nextAxis i) f p
        else kdNNF S v fuel (nextAxis i) (p + 1) l
      let minDist := ssq (elt S p) v
      let tail := fun (s : Nat) (m : ℤ) =>
        if ltSqrt |v i - elt S p i| m then
          let s2 :=
            if searchLeft then kdNNF S v fuel (nextAxis i) (p + 1) l
            else kdNNF S v fuel (nextAxis i) f p
          if s2 ≠ l ∧ ssq (elt S s2) v < m then s2 else s
        else s
      if search = l then tail p minDist
      else
        let sdist := ssq (elt S search) v
        if sdist < minDist then tail search sdist else tail p minDist
    else f

/-- kd_nearest_neighbor, eps variant.  The two shortcuts compare a squared
distance against eps via sqrtLt, and the pruning test
abs (v i - pivot i) < min_dist - eps is encoded as
ltSqrt (abs (v i - pivot i) + eps) minDist. -/
def kdNNepsF {k : Nat} (S : List (Tup k)) (v : Tup k) (eps : ℤ) :
    Nat → Fin k → Nat → Nat → Nat
  | 0, _, f, _ => f
  | fuel + 1, i, f, l =>
    if 1 < l - f then
      let p := findPivot S i f l
      let minDist := ssq (elt S p) v
      if sqrtLt minDist eps then p
      else
        let searchLeft := lessNth i v (elt S p)
        let search :=
          if searchLeft then kdNNepsF S v eps fuel (nextAxis i) f p
          else kdNNepsF S v eps fuel (nextAxis i) (p + 1) l
        let tail := fun (s : Nat) (m : ℤ) =>
          if ltSqrt (|v i - elt S p i| + eps) m then
            let s2 :=
              if searchLeft then kdNNepsF S v eps fuel (nextAxis i) (p + 1) l
              else kdNNepsF S v eps fuel (nextAxis i) f p
            if s2 ≠ l ∧ ssq (elt S s2) v < m then s2 else s
          else s
        if search = l then tail p minDist
        else
          let sdist := ssq (elt S search) v
          if sqrtLt sdist eps then search
          else if sdist < minDist then tail search sdist
          else tail p minDist
    else f

/-- kd_range_query; emits the dereferenced elements in source order (pivot,
then the left recursion, then the right recursion). -/
def kdRangeQueryF {k : Nat} (S : List (Tup k)) (lower upper : Tup k) :
    Nat → Fin k → Nat → Nat → List (Tup k)
  | 0, _, _, _ => []
  | fuel + 1, i, f, l =>
    if l - f = 1 then if containsB (elt S f) lower upper then [elt S f] else []
    else if l - f = 0 then []
    else
      let p := findPivot S i f l
      (if containsB (elt S p) lower upper then [elt S p] else []) ++
        (if !lessNth i (elt S p) lower then
          kdRangeQueryF S lower upper fuel (nextAxis i) f p
         else []) ++
        (if lessNth i (elt S p) upper then
          kdRangeQueryF S lower upper fuel (nextAxis i) (p + 1) l
         else [])

/-! ### The bounded best-queue and knn -/

/-- n_best: capacity and the queue contents.  The priority queue over
(key, iterator) pairs ordered by less on the key is modelled as a list
sorted by descending key, head first (the heap top); keys carry squared
distances. -/
structure NBest where
  cap : Nat
  q : List (ℤ × Nat)

/-- Insertion keeping the descending order (the arrangement of equal keys
inside the heap is unspecified in the source; insertion before equal keys
is one refinement of it). -/
def nbInsert (d : ℤ) (j : Nat) : List (ℤ × Nat) → List (ℤ × Nat)
  | [] => [(d, j)]
  | x :: rest => if x.1 ≤ d then (d, j) :: x :: rest else x :: nbInsert d j rest

/-- n_best add: push the pair, then pop the maximum if the size exceeds the
capacity. -/
def nbAdd (b : NBest) (d : ℤ) (j : Nat) : NBest :=
  let q := nbInsert d j b.q
  ⟨b.cap, if b.cap < q.length then q.tail else q⟩

/-- n_best max_key: the sentinel (numeric_limits max, the spec plus
infinity, modelled as the top of WithTop) when empty, otherwise the top
key. -/
def nbMaxKey (b : NBest) : WithTop ℤ :=
  match b.q with
  | [] => ⊤
  | x :: _ => (x.1 : WithTop ℤ)

def nbEmpty (n : Nat) : NBest := ⟨n, []⟩

/-- n_best copy: repeatedly emit the dereferenced top and pop. -/
def nbCopy {k : Nat} (S : List (Tup k)) (b : NBest) : List (Tup k) :=
  b.q.map fun x => elt S x.2

/-- knn.  The pruning test abs (v i - pivot i) <= max_key compares the
squared gap against the squared key (or the sentinel top). -/
def knnF {k : Nat} (S : List (Tup k)) (v : Tup k) : Nat → Fin k → Nat → Nat → NBest → NBest
  | 0, _, _, _, b => b
  | fuel + 1, i, f, l, b =>
    if l - f = 1 then nbAdd b (ssq (elt S f) v) f
    else if l - f = 0 then b
    else
      let p := findPivot S i f l
      let b1 := nbAdd b (ssq (elt S p) v) p
      let searchLeft := lessNth i v (elt S p)
      let b2 :=
        if searchLeft then knnF S v fuel (nextAxis i) f p b1
        else knnF S v fuel (nextAxis i) (p + 1) l b1
      if (((v i - elt S p i) ^ 2 : ℤ) : WithTop ℤ) ≤ nbMaxKey b2 then
        if searchLeft then knnF S v fuel (nextAxis i) (p + 1) l b2
        else knnF S v fuel (nextAxis i) f p b2
      else b2

/-! ### Public wrappers (all start at axis 0 over the whole range) -/

def kdLowerBound {k : Nat} [NeZero k] (S : List (Tup k)) (v : Tup k) : Nat :=
  kdLowerBoundF S v S.length (0 : Fin k) 0 S.length

def kdUpperBound {k : Nat} [NeZero k] (S : List (Tup k)) (v : Tup k) : Nat :=
  kdUpperBoundF S v S.length (0 : Fin k) 0 S.length

def kdBinarySearch {k : Nat} [NeZero k] (S : List (Tup k)) (v : Tup k) : Bool :=
  let r := kdLowerBound S v
  decide (r ≠ S.length) && noneLess v (elt S r)

def kdNearestNeighbor {k : Nat} [NeZero k] (S : List (Tup k)) (v : Tup k) : Nat :=
  kdNNF S v S.length (0 : Fin k) 0 S.length

def kdNearestNeighborEps {k : Nat} [NeZero k] (S : List (Tup k)) (v : Tup k) (eps : ℤ) : Nat :=
  kdNNepsF S v eps S.length (0 : Fin k) 0 S.length

def kdRangeQuery {k : Nat} [NeZero k] (S : List (Tup k)) (lower upper : Tup k) : List (Tup k) :=
  kdRangeQueryF S lower upper S.length (0 : Fin k) 0 S.length

def kdNearestNeighbors {k : Nat} [NeZero k] (S : List (Tup k)) (v : Tup k) (n : Nat) :
    List (Tup k) :=
  nbCopy S (knnF S v S.length (0 : Fin k) 0 S.length (nbEmpty n))

/-! ### Facts about the sort step -/

instance {k : Nat} (i : Fin k) : IsTotal (Tup k) (kdLe i) := by
  constructor
  intro a b
  by_cases h : kdLess i b a = true
  · exact Or.inr (kdLess_asymm h)
  · exact Or.inl (Bool.eq_false_iff.mpr h)

instance {k : Nat} (i : Fin k) : IsTrans (Tup k) (kdLe i) := by
  constructor
  intro a b c hab hbc
  unfold kdLe at *
  by_cases hca : kdLess i c a = true
  · by_cases hbcl : kdLess i b c = true
    · exact absurd (kdLess_trans hbcl hca) (Bool.eq_false_iff.mp hab)
    · have hbc2 : kdLess i b c = false := Bool.eq_false_iff.mpr hbcl
      have : b = c := kdLess_eq_of_incomp hbc2 hbc
      rw [← this] at hca
      exact absurd hca (Bool.eq_false_iff.mp hab)
  · exact Bool.eq_false_iff.mpr hca

theorem nthElem_perm {k : Nat} (i : Fin k) (seg : List (Tup k)) :
    (nthElem i seg).Perm seg :=
  List.perm_insertionSort _ _

theorem nthElem_length {k : Nat} (i : Fin k) (seg : List (Tup k)) :
    (nthElem i seg).length = seg.length :=
  (nthElem_perm i seg).length_eq

theorem nthElem_sorted {k : Nat} (i : Fin k) (seg : List (Tup k)) :
    List.Sorted (kdLe i) (nthElem i seg) :=
  List.sorted_insertionSort _ _

/-- Sortedness at the position level: the element at a later position is
never kd_less than the element at an earlier one. -/
theorem nthElem_rel {k : Nat} (i : Fin k) (seg : List (Tup k)) {a b : Nat}
    (hab : a < b) (hb : b < seg.length) :
    kdLess i ((nthElem i seg).getD b default) ((nthElem i seg).getD a default) = false := by
  have hlen := nthElem_length i seg
  have hb' : b < (nthElem i seg).length := by omega
  have ha' : a < (nthElem i seg).length := by omega
  have h := (nthElem_sorted i seg).rel_get_of_lt (a := ⟨a, ha'⟩) (b := ⟨b, hb'⟩)
    (by simpa using hab)
  unfold kdLe at h
  rw [List.getD_eq_getElem _ _ hb', List.getD_eq_getElem _ _ ha']
  simpa using h

theorem take_mem_not_pv_lt {k : Nat} (i : Fin k) (seg : List (Tup k))
    (h2 : 2 ≤ seg.length) :
    ∀ x ∈ (nthElem i seg).take (seg.length / 2), kdLess i (pivotVal i seg) x = false := by
  intro x hx
  rw [List.mem_iff_getElem] at hx
  obtain ⟨j, hj, rfl⟩ := hx
  rw [List.length_take, nthElem_length] at hj
  have hjm : j < seg.length / 2 := lt_of_lt_of_le hj (min_le_left _ _)
  have hm : seg.length / 2 < seg.length := Nat.div_lt_self (by omega) (by omega)
  have hgoal := nthElem_rel i seg hjm hm
  rw [List.getElem_take]
  have hj' : j < (nthElem i seg).length := by rw [nthElem_length]; omega
  rw [← List.getD_eq_getElem (nthElem i seg) default hj']
  exact hgoal

theorem drop_mem_not_lt_pv {k : Nat} (i : Fin k) (seg : List (Tup k))
    (h2 : 2 ≤ seg.length) :
    ∀ y ∈ (nthElem i seg).drop (seg.length / 2), kdLess i y (pivotVal i seg) = false := by
  intro y hy
  rw [List.mem_iff_getElem] at hy
  obtain ⟨j, hj, rfl⟩ := hy
  rw [List.length_drop, nthElem_length] at hj
  have hm : seg.length / 2 < seg.length := Nat.div_lt_self (by omega) (by omega)
  rw [List.getElem_drop]
  have hj' : seg.length / 2 + j < (nthElem i seg).length := by rw [nthElem_length]; omega
  rw [← List.getD_eq_getElem (nthElem i seg) default hj']
  rcases Nat.eq_zero_or_pos j with rfl | hpos
  · unfold pivotVal
    rw [Nat.add_zero]
    exact kdLess_irrefl i _
  · exact nthElem_rel i seg (by omega) (by omega)

theorem kdSortParts_eq {k : Nat} (i : Fin k) (seg : List (Tup k)) :
    kdSortParts i seg =
      (((nthElem i seg).take (seg.length / 2)).filter (fun x => kdLess i x (pivotVal i seg)),
       ((nthElem i seg).take (seg.length / 2)).filter (fun x => !kdLess i x (pivotVal i seg)),
       (nthElem i seg).drop (seg.length / 2)) := by
  simp only [kdSortParts, List.partition_eq_filter_filter]
  rfl

theorem ts_mem_lt {k : Nat} (i : Fin k) (seg : List (Tup k)) :
    ∀ x ∈ (kdSortParts i seg).1, kdLess i x (pivotVal i seg) = true := by
  rw [kdSortParts_eq]
  intro x hx
  exact (List.mem_filter.mp hx).2

theorem fs_mem_eq_pv {k : Nat} (i : Fin k) (seg : List (Tup k)) (h2 : 2 ≤ seg.length) :
    ∀ x ∈ (kdSortParts i seg).2.1, x = pivotVal i seg := by
  rw [kdSortParts_eq]
  intro x hx
  have h1 := (List.mem_filter.mp hx).2
  have hmem := (List.mem_filter.mp hx).1
  have h1' : kdLess i x (pivotVal i seg) = false := by
    simpa using h1
  exact kdLess_eq_of_incomp h1' (take_mem_not_pv_lt i seg h2 x hmem)

theorem rest_mem_not_lt {k : Nat} (i : Fin k) (seg : List (Tup k)) (h2 : 2 ≤ seg.length) :
    ∀ y ∈ (kdSortParts i seg).2.1 ++ (kdSortParts i seg).2.2,
      kdLess i y (pivotVal i seg) = false := by
  intro y hy
  rcases List.mem_append.mp hy with hy | hy
  · rw [kdSortParts_eq] at hy
    simpa using (List.mem_filter.mp hy).2
  · rw [kdSortParts_eq] at hy
    exact drop_mem_not_lt_pv i seg h2 y hy

theorem ts_append_fs_perm {k : Nat} (i : Fin k) (seg : List (Tup k)) :
    ((kdSortParts i seg).1 ++ (kdSortParts i seg).2.1).Perm
      ((nthElem i seg).take (seg.length / 2)) := by
  rw [kdSortParts_eq]
  exact List.filter_append_perm _ _

theorem ts_fs_length {k : Nat} (i : Fin k) (seg : List (Tup k)) :
    (kdSortParts i seg).1.length + (kdSortParts i seg).2.1.length =
      min (seg.length / 2) seg.length := by
  have h := (ts_append_fs_perm i seg).length_eq
  rw [List.length_append, List.length_take, nthElem_length] at h
  exact h

theorem ts_length_le {k : Nat} (i : Fin k) (seg : List (Tup k)) :
    (kdSortParts i seg).1.length ≤ seg.length / 2 := by
  have h := ts_fs_length i seg
  have := min_le_left (seg.length / 2) seg.length
  omega

theorem rest_length {k : Nat} (i : Fin k) (seg : List (Tup k)) (_h2 : 2 ≤ seg.length) :
    ((kdSortParts i seg).2.1 ++ (kdSortParts i seg).2.2).length =
      seg.length - (kdSortParts i seg).1.length := by
  have h := ts_fs_length i seg
  have hmin : min (seg.length / 2) seg.length = seg.length / 2 :=
    min_eq_left (Nat.div_le_self _ _)
  rw [hmin] at h
  have hd : (kdSortParts i seg).2.2.length = seg.length - seg.length / 2 := by
    rw [kdSortParts_eq]
    simp [List.length_drop, nthElem_length]
  rw [List.length_append, hd]
  have := Nat.div_le_self seg.length 2
  omega

theorem rest_ne_nil {k : Nat} (i : Fin k) (seg : List (Tup k)) (h2 : 2 ≤ seg.length) :
    (kdSortParts i seg).2.1 ++ (kdSortParts i seg).2.2 ≠ [] := by
  intro h
  have := rest_length i seg h2
  rw [h] at this
  simp at this
  have hts := ts_length_le i seg
  have : seg.length / 2 < seg.length := Nat.div_lt_self (by omega) (by omega)
  omega

theorem rest_headD_eq_pv {k : Nat} (i : Fin k) (seg : List (Tup k)) (h2 : 2 ≤ seg.length) :
    ((kdSortParts i seg).2.1 ++ (kdSortParts i seg).2.2).headD default = pivotVal i seg := by
  cases hfs : (kdSortParts i seg).2.1 with
  | cons a t =>
    have ha : a ∈ (kdSortParts i seg).2.1 := by rw [hfs]; exact List.mem_cons_self a t
    simpa using fs_mem_eq_pv i seg h2 a ha
  | nil =>
    rw [List.nil_append]
    have hm : seg.length / 2 < (nthElem i seg).length := by
      rw [nthElem_length]
      exact Nat.div_lt_self (by omega) (by omega)
    have hdrop : (kdSortParts i seg).2.2 =
        (nthElem i seg)[seg.length / 2] :: (nthElem i seg).drop (seg.length / 2 + 1) := by
      rw [kdSortParts_eq]
      exact List.drop_eq_getElem_cons hm
    rw [hdrop]
    simp [pivotVal, List.getD_eq_getElem _ _ hm]

/-- kd_sort permutes the segment. -/
theorem kdSortSegF_perm {k : Nat} :
    ∀ (fuel : Nat) (i : Fin k) (seg : List (Tup k)), seg.length ≤ fuel →
      (kdSortSegF fuel i seg).Perm seg := by
  intro fuel
  induction fuel with
  | zero =>
    intro i seg hlen
    have : seg = [] := List.length_eq_zero.mp (by omega)
    subst this
    exact List.Perm.refl _
  | succ fuel ih =>
    intro i seg hlen
    by_cases h1 : seg.length ≤ 1
    · simp only [kdSortSegF, if_pos h1]
      exact List.Perm.refl _
    · have h2 : 2 ≤ seg.length := by omega
      simp only [kdSortSegF, if_neg h1]
      have hmid : seg.length / 2 < seg.length := Nat.div_lt_self (by omega) (by omega)
      have htsl : (kdSortParts i seg).1.length ≤ fuel := by
        have := ts_length_le i seg
        omega
      have hrl : ((kdSortParts i seg).2.1 ++ (kdSortParts i seg).2.2).tail.length ≤ fuel := by
        rw [List.length_tail, rest_length i seg h2]
        omega
      have hL := ih (nextAxis i) _ htsl
      have hR := ih (nextAxis i) _ hrl
      have hcons : ((kdSortParts i seg).2.1 ++ (kdSortParts i seg).2.2).headD default ::
          ((kdSortParts i seg).2.1 ++ (kdSortParts i seg).2.2).tail =
          (kdSortParts i seg).2.1 ++ (kdSortParts i seg).2.2 := by
        cases hr : (kdSortParts i seg).2.1 ++ (kdSortParts i seg).2.2 with
        | nil => exact absurd hr (rest_ne_nil i seg h2)
        | cons a t => simp
      have step1 := List.Perm.append hL (List.Perm.cons
        (((kdSortParts i seg).2.1 ++ (kdSortParts i seg).2.2).headD default) hR)
      rw [hcons] at step1
      have hdd : (kdSortParts i seg).2.2 = (nthElem i seg).drop (seg.length / 2) := by
        rw [kdSortParts_eq]
      have step2 : ((kdSortParts i seg).1 ++
          ((kdSortParts i seg).2.1 ++ (kdSortParts i seg).2.2)).Perm seg := by
        rw [← List.append_assoc]
        refine List.Perm.trans (List.Perm.append_right _ (ts_append_fs_perm i seg)) ?_
        rw [hdd, List.take_append_drop]
        exact nthElem_perm i seg
      exact step1.trans step2

theorem kdSortSegF_length {k : Nat} (fuel : Nat) (i : Fin k) (seg : List (Tup k))
    (h : seg.length ≤ fuel) : (kdSortSegF fuel i seg).length = seg.length :=
  (kdSortSegF_perm fuel i seg h).length_eq

/-! ### The layout invariants -/

/-- The recursive k-d layout invariant that kd_sort actually establishes,
on a segment: either the segment is trivial, or some split position p has
all earlier elements kd_less from axis i than the element at p, no later
element kd_less than it, and both halves satisfying the invariant at the
next axis.  (The split position is the partition boundary, not midpos:
with duplicate tuples the boundary moves left of midpos.) -/
def KdSegInvF {k : Nat} : Nat → Fin k → List (Tup k) → Bool
  | 0, _, seg => decide (seg.length ≤ 1)
  | fuel + 1, i, seg =>
    if seg.length ≤ 1 then true
    else
      (List.range seg.length).any fun p =>
        ((seg.take p).all fun x => kdLess i x (seg.getD p default)) &&
        (((seg.drop (p + 1)).all fun y => !kdLess i y (seg.getD p default)) &&
        (KdSegInvF fuel (nextAxis i) (seg.take p) &&
        KdSegInvF fuel (nextAxis i) (seg.drop (p + 1))))

/-- A sequence in k-d order (the invariant from axis 0 over the whole
range). -/
def KdSorted {k : Nat} [NeZero k] (S : List (Tup k)) : Prop :=
  KdSegInvF S.length (0 : Fin k) S = true

instance {k : Nat} [NeZero k] (S : List (Tup k)) : Decidable (KdSorted S) := by
  unfold KdSorted
  infer_instance

/-- The literal layout invariant of the specification, section 3: the split
position is midpos; earlier elements are below the pivot on axis i or tied
on axis i and cyclically-lex-less; later elements are at or above the
pivot on axis i with the same cyclic tie-break resolving equality. -/
def specKdOrderF {k : Nat} : Nat → Fin k → List (Tup k) → Bool
  | 0, _, seg => decide (seg.length ≤ 1)
  | fuel + 1, i, seg =>
    if seg.length ≤ 1 then true
    else
      let p := seg.length / 2
      let pv := seg.getD p default
      ((seg.take p).all fun x =>
        lessNth i x pv || (decide (x i = pv i) && kdLess i x pv)) &&
      (((seg.drop (p + 1)).all fun y =>
        lessNth i pv y || (decide (pv i = y i) && !kdLess i y pv)) &&
      (specKdOrderF fuel (nextAxis i) (seg.take p) &&
      specKdOrderF fuel (nextAxis i) (seg.drop (p + 1))))

def specKdOrder {k : Nat} [NeZero k] (S : List (Tup k)) : Bool :=
  specKdOrderF S.length (0 : Fin k) S

theorem take_append_cons {α : Type _} (L R : List α) (b : α) :
    (L ++ b :: R).take L.length = L :=
  List.take_left L (b :: R)

theorem drop_append_cons {α : Type _} (L R : List α) (b : α) :
    (L ++ b :: R).drop (L.length + 1) = R := by
  have h : L ++ b :: R = (L ++ [b]) ++ R := by simp
  have hl : L.length + 1 = (L ++ [b]).length := by simp
  rw [h, hl, List.drop_left]

theorem getD_append_cons {α : Type _} (L R : List α) (b d : α) :
    (L ++ b :: R).getD L.length d = b := by
  have hlt : L.length < (L ++ b :: R).length := by simp
  rw [List.getD_eq_getElem _ _ hlt, List.getElem_append_right (le_refl _)]
  simp

/-- kd_sort establishes the layout invariant on every segment. -/
theorem kdSortSegF_inv {k : Nat} :
    ∀ (fuel : Nat) (i : Fin k) (seg : List (Tup k)), seg.length ≤ fuel →
      KdSegInvF fuel i (kdSortSegF fuel i seg) = true := by
  intro fuel
  induction fuel with
  | zero =>
    intro i seg hlen
    simp only [kdSortSegF, KdSegInvF]
    exact decide_eq_true (by omega)
  | succ fuel ih =>
    intro i seg hlen
    by_cases h1 : seg.length ≤ 1
    · simp only [kdSortSegF, if_pos h1, KdSegInvF]
    · have h2 : 2 ≤ seg.length := by omega
      have hmid : seg.length / 2 < seg.length := Nat.div_lt_self (by omega) (by omega)
      have htsl : (kdSortParts i seg).1.length ≤ fuel := by
        have := ts_length_le i seg
        omega
      have hrl : ((kdSortParts i seg).2.1 ++ (kdSortParts i seg).2.2).tail.length ≤ fuel := by
        rw [List.length_tail, rest_length i seg h2]
        omega
      simp only [kdSortSegF, if_neg h1]
      have hLlen := kdSortSegF_length fuel (nextAxis i) _ htsl
      have hRlen := kdSortSegF_length fuel (nextAxis i) _ hrl
      have hreslen : (kdSortSegF fuel (nextAxis i) (kdSortParts i seg).1 ++
          ((kdSortParts i seg).2.1 ++ (kdSortParts i seg).2.2).headD default ::
            kdSortSegF fuel (nextAxis i)
              ((kdSortParts i seg).2.1 ++ (kdSortParts i seg).2.2).tail).length =
          seg.length := by
        rw [List.length_append, List.length_cons, hLlen, hRlen, List.length_tail,
          rest_length i seg h2]
        have := ts_length_le i seg
        omega
      simp only [KdSegInvF]
      rw [if_neg (by omega : ¬ (kdSortSegF fuel (nextAxis i) (kdSortParts i seg).1 ++
          ((kdSortParts i seg).2.1 ++ (kdSortParts i seg).2.2).headD default ::
            kdSortSegF fuel (nextAxis i)
              ((kdSortParts i seg).2.1 ++ (kdSortParts i seg).2.2).tail).length ≤ 1)]
      rw [List.any_eq_true]
      refine ⟨(kdSortSegF fuel (nextAxis i) (kdSortParts i seg).1).length,
        List.mem_range.mpr (by simp), ?_⟩
      rw [take_append_cons, drop_append_cons, getD_append_cons,
        rest_headD_eq_pv i seg h2]
      simp only [Bool.and_eq_true]
      refine ⟨?_, ?_, ?_, ?_⟩
      · rw [List.all_eq_true]
        intro x hx
        have hx2 : x ∈ (kdSortParts i seg).1 :=
          (kdSortSegF_perm fuel (nextAxis i) _ htsl).mem_iff.mp hx
        exact ts_mem_lt i seg x hx2
      · rw [List.all_eq_true]
        intro y hy
        have hy2 : y ∈ ((kdSortParts i seg).2.1 ++ (kdSortParts i seg).2.2).tail :=
          (kdSortSegF_perm fuel (nextAxis i) _ hrl).mem_iff.mp hy
        have hy3 := List.mem_of_mem_tail hy2
        simp [rest_mem_not_lt i seg h2 y hy3]
      · exact ih (nextAxis i) _ htsl
      · exact ih (nextAxis i) _ hrl

/-- The all-duplicate pair: the smallest input on which the literal
invariant of specification section 3 fails after sorting. -/
def dupPair : List (Tup 2) := [![7, 7], ![7, 7]]

/-- C5: after kd_sort, at every recursive level over [first, last) with
p = midpos, every x in [first, p) is strictly below the pivot in the
cyclic order from axis i, every y in (p, last) is at or above it, and the
halves recursively satisfy the same property at next i. -/
theorem c5_spec_invariant_fails_on_duplicates :
    kdSort dupPair = dupPair ∧ specKdOrder dupPair = false := by
  constructor
  · rfl
  · rfl

/-- C5 amended: after kd_sort on any sequence, every recursive level
satisfies the k-d order conditions at the partition split position (the
first position holding the pivot value), with the strict cyclic order on
the left and its negation on the right, and the halves recursively in
order at the next axis; the split position coincides with midpos whenever
no duplicate of the pivot value lies in the left half, but moves left of
midpos in the presence of duplicates. -/
theorem c5_kd_sort_establishes_layout {k : Nat} [NeZero k] (S : List (Tup k)) :
    KdSorted (kdSort S) := by
  unfold KdSorted kdSort
  rw [kdSortSegF_length S.length (0 : Fin k) S le_rfl]
  exact kdSortSegF_inv S.length (0 : Fin k) S le_rfl

theorem c5_witness : KdSorted (kdSort ([![3, 1], ![2, 2]] : List (Tup 2))) :=
  c5_kd_sort_establishes_layout ([![3, 1], ![2, 2]] : List (Tup 2))

/-! ### Bounds for the binary-search primitives -/

theorem ppF_bounds (pred : Nat → Bool) :
    ∀ (fuel f len : Nat), len ≤ fuel →
      f ≤ ppF pred fuel f len ∧ ppF pred fuel f len ≤ f + len := by
  intro fuel
  induction fuel with
  | zero =>
    intro f len h
    have : len = 0 := by omega
    subst this
    simp [ppF]
  | succ fuel ih =>
    intro f len h
    simp only [ppF]
    by_cases h0 : len = 0
    · rw [if_pos h0]
      omega
    · rw [if_neg h0]
      have hhalf : len / 2 < len := Nat.div_lt_self (by omega) (by omega)
      by_cases hp : pred (f + len / 2) = true
      · simp only [if_pos hp]
        have := ih (f + len / 2 + 1) (len - len / 2 - 1) (by omega)
        omega
      · simp only [if_neg hp]
        have := ih f (len / 2) (by omega)
        omega

theorem midpos_le (f l : Nat) : f ≤ midpos f l := Nat.le_add_right _ _

theorem midpos_lt (f l : Nat) (h : f < l) : midpos f l < l := by
  unfold midpos
  have : (l - f) / 2 < l - f := Nat.div_lt_self (by omega) (by omega)
  omega

theorem findPivot_bounds {k : Nat} (S : List (Tup k)) (i : Fin k) (f l : Nat) :
    f ≤ findPivot S i f l ∧ findPivot S i f l ≤ midpos f l := by
  unfold findPivot
  have h := ppF_bounds (fun j => lessNth i (elt S j) (elt S (midpos f l)))
    (midpos f l - f) f (midpos f l - f) le_rfl
  have h2 := midpos_le f l
  omega

/-! ### Positions respect the cyclic orders in a k-d ordered segment -/

theorem getD_take_eq {α : Type _} (l : List α) (p a : Nat) (d : α)
    (h : a < p) (h2 : a < l.length) : (l.take p).getD a d = l.getD a d := by
  have ha : a < (l.take p).length := by
    rw [List.length_take]
    omega
  rw [List.getD_eq_getElem _ _ ha, List.getD_eq_getElem _ _ h2, List.getElem_take]

theorem getD_drop_eq {α : Type _} (l : List α) (p j : Nat) (d : α)
    (h : p + j < l.length) : (l.drop p).getD j d = l.getD (p + j) d := by
  have hj : j < (l.drop p).length := by
    rw [List.length_drop]
    omega
  rw [List.getD_eq_getElem _ _ hj, List.getD_eq_getElem _ _ h, List.getElem_drop]

theorem getD_mem {α : Type _} (l : List α) (a : Nat) (d : α) (h : a < l.length) :
    l.getD a d ∈ l := by
  rw [List.getD_eq_getElem _ _ h]
  exact List.getElem_mem _

/-- In a segment satisfying the layout invariant, an element that is
cyclically-lex below another from every starting axis sits at an earlier
position.  This is the only consequence of k-d orderedness that the
membership queries need. -/
theorem kdSegInv_pos_of_lex {k : Nat} :
    ∀ (fuel : Nat) (i : Fin k) (seg : List (Tup k)), seg.length ≤ fuel →
      KdSegInvF fuel i seg = true →
      ∀ a b : Nat, a < seg.length → b < seg.length →
        (∀ i' : Fin k, kdLess i' (seg.getD a default) (seg.getD b default) = true) →
        a < b := by
  intro fuel
  induction fuel with
  | zero =>
    intro i seg hlen _ a b ha hb hd
    have ha0 : a = 0 := by omega
    have hb0 : b = 0 := by omega
    subst ha0; subst hb0
    exact absurd (hd i) (by simp [kdLess_irrefl])
  | succ fuel ih =>
    intro i seg hlen hinv a b ha hb hd
    by_cases h1 : seg.length ≤ 1
    · have ha0 : a = 0 := by omega
      have hb0 : b = 0 := by omega
      subst ha0; subst hb0
      exact absurd (hd i) (by simp [kdLess_irrefl])
    · simp only [KdSegInvF, if_neg h1] at hinv
      rw [List.any_eq_true] at hinv
      obtain ⟨p, hpmem, hbody⟩ := hinv
      rw [List.mem_range] at hpmem
      simp only [Bool.and_eq_true] at hbody
      obtain ⟨hc1, hc2, hc3, hc4⟩ := hbody
      rw [List.all_eq_true] at hc1 hc2
      -- positions relative to the split point p
      rcases Nat.lt_trichotomy a p with hap | hap | hap <;>
        rcases Nat.lt_trichotomy b p with hbp | hbp | hbp
      · -- both in the left half
        have htake : a < (seg.take p).length := by rw [List.length_take]; omega
        have htb : b < (seg.take p).length := by rw [List.length_take]; omega
        have := ih (nextAxis i) (seg.take p) (by rw [List.length_take]; omega) hc3 a b
          htake htb ?_
        · exact this
        · intro i'
          rw [getD_take_eq seg p a default hap ha, getD_take_eq seg p b default hbp hb]
          exact hd i'
      · -- a left, b at the split
        omega
      · -- a left, b right
        omega
      · -- a at the split, b left: contradiction with condition 1
        have hmem : (seg.take p).getD b default ∈ seg.take p := by
          apply getD_mem
          rw [List.length_take]
          omega
        have h1b := hc1 _ hmem
        rw [getD_take_eq seg p b default hbp hb] at h1b
        have hasym := kdLess_asymm h1b
        rw [hap] at hd
        rw [hd i] at hasym
        exact absurd hasym (by simp)
      · -- a = b = p
        rw [hap, ← hbp] at hd
        exact absurd (hd i) (by simp [kdLess_irrefl])
      · -- a at the split, b right
        omega
      · -- a right, b left: contradiction via transitivity
        have hj : p + 1 + (a - p - 1) < seg.length := by omega
        have hmem : (seg.drop (p + 1)).getD (a - p - 1) default ∈ seg.drop (p + 1) := by
          apply getD_mem
          rw [List.length_drop]
          omega
        have h2a := hc2 _ hmem
        rw [getD_drop_eq seg (p + 1) (a - p - 1) default (by omega)] at h2a
        have haeq : p + 1 + (a - p - 1) = a := by omega
        rw [haeq] at h2a
        simp only [Bool.not_eq_true'] at h2a
        have hmb : (seg.take p).getD b default ∈ seg.take p := by
          apply getD_mem
          rw [List.length_take]
          omega
        have h1b := hc1 _ hmb
        rw [getD_take_eq seg p b default hbp hb] at h1b
        have := kdLess_trans (hd i) h1b
        rw [this] at h2a
        exact absurd h2a (by simp)
      · -- a right, b at the split: contradiction with condition 2
        have hmem : (seg.drop (p + 1)).getD (a - p - 1) default ∈ seg.drop (p + 1) := by
          apply getD_mem
          rw [List.length_drop]
          omega
        have h2a := hc2 _ hmem
        rw [getD_drop_eq seg (p + 1) (a - p - 1) default (by omega)] at h2a
        have haeq : p + 1 + (a - p - 1) = a := by omega
        rw [haeq] at h2a
        simp only [Bool.not_eq_true'] at h2a
        rw [← hbp] at h2a
        rw [hd i] at h2a
        exact absurd h2a (by simp)
      · -- both right
        have hal : a - p - 1 < (seg.drop (p + 1)).length := by rw [List.length_drop]; omega
        have hbl : b - p - 1 < (seg.drop (p + 1)).length := by rw [List.length_drop]; omega
        have := ih (nextAxis i) (seg.drop (p + 1)) (by rw [List.length_drop]; omega) hc4
          (a - p - 1) (b - p - 1) hal hbl ?_
        · omega
        · intro i'
          rw [getD_drop_eq seg (p + 1) (a - p - 1) default (by omega),
            getD_drop_eq seg (p + 1) (b - p - 1) default (by omega)]
          have haeq : p + 1 + (a - p - 1) = a := by omega
          have hbeq : p + 1 + (b - p - 1) = b := by omega
          rw [haeq, hbeq]
          exact hd i'

theorem kdLess_of_lt_axis {k : Nat} {a b : Tup k} {i : Fin k} (h : a i < b i) :
    kdLess i a b = true := by
  unfold kdLess
  cases hk : k - 1 with
  | zero => simp [kdLessAux, h]
  | succ n => simp [kdLessAux, ne_of_lt h, h]

theorem kdLess_eq_false_of_gt_axis {k : Nat} {a b : Tup k} {i : Fin k} (h : b i < a i) :
    kdLess i a b = false := by
  unfold kdLess
  cases hk : k - 1 with
  | zero => simp [kdLessAux, not_lt, le_of_lt h]
  | succ n =>
    have hne : ¬ a i = b i := fun he => absurd (he ▸ h) (lt_irrefl _)
    simp [kdLessAux, hne, not_lt, le_of_lt h]

/-- The literal section-3 invariant implies the layout invariant: a sequence
k-d-sorted in the sense of the specification satisfies the hypothesis used
by the membership-query theorems. -/
theorem specKdOrderF_imp_inv {k : Nat} :
    ∀ (fuel : Nat) (i : Fin k) (seg : List (Tup k)),
      specKdOrderF fuel i seg = true → KdSegInvF fuel i seg = true := by
  intro fuel
  induction fuel with
  | zero =>
    intro i seg h
    exact h
  | succ fuel ih =>
    intro i seg h
    by_cases h1 : seg.length ≤ 1
    · simp only [KdSegInvF, if_pos h1]
    · simp only [specKdOrderF, if_neg h1, Bool.and_eq_true] at h
      obtain ⟨hc1, hc2, hc3, hc4⟩ := h
      simp only [KdSegInvF, if_neg h1]
      rw [List.any_eq_true]
      refine ⟨seg.length / 2,
        List.mem_range.mpr (Nat.div_lt_self (by omega) (by omega)), ?_⟩
      simp only [Bool.and_eq_true]
      refine ⟨?_, ?_, ih _ _ hc3, ih _ _ hc4⟩
      · rw [List.all_eq_true] at hc1 ⊢
        intro x hx
        have hx2 := hc1 x hx
        rw [Bool.or_eq_true] at hx2
        rcases hx2 with hlt | heq
        · exact kdLess_of_lt_axis (by simpa [lessNth] using hlt)
        · rw [Bool.and_eq_true] at heq
          exact heq.2
      · rw [List.all_eq_true] at hc2 ⊢
        intro y hy
        have hy2 := hc2 y hy
        rw [Bool.or_eq_true] at hy2
        rcases hy2 with hlt | heq
        · simp only [Bool.not_eq_true']
          exact kdLess_eq_false_of_gt_axis (by simpa [lessNth] using hlt)
        · rw [Bool.and_eq_true] at heq
          exact heq.2

theorem specKdOrder_imp_KdSorted {k : Nat} [NeZero k] (S : List (Tup k))
    (h : specKdOrder S = true) : KdSorted S :=
  specKdOrderF_imp_inv S.length (0 : Fin k) S h

/-! ### Correctness of kd_lower_bound -/

/-- kd_lower_bound returns the leftmost position whose element is
componentwise at or above the query, or last when no position of the range
qualifies.  The only structural hypothesis is that positions respect the
cyclic orders (the consequence of k-d orderedness proved above). -/
theorem kdLowerBoundF_spec {k : Nat} (S : List (Tup k)) (v : Tup k)
    (hS : ∀ a b : Nat, a < S.length → b < S.length →
      (∀ i' : Fin k, kdLess i' (elt S a) (elt S b) = true) → a < b) :
    ∀ (fuel : Nat) (i : Fin k) (f l : Nat), f ≤ l → l ≤ S.length → l - f ≤ fuel →
      (kdLowerBoundF S v fuel i f l = l ∨
        (f ≤ kdLowerBoundF S v fuel i f l ∧ kdLowerBoundF S v fuel i f l < l ∧
          noneLess (elt S (kdLowerBoundF S v fuel i f l)) v = true)) ∧
      (∀ j, f ≤ j → j < l → j < kdLowerBoundF S v fuel i f l →
        noneLess (elt S j) v = false) := by
  intro fuel
  induction fuel with
  | zero =>
    intro i f l hfl hl hfuel
    have hlf : l = f := by omega
    subst hlf
    simp only [kdLowerBoundF]
    constructor
    · split
      · exact Or.inl rfl
      · exact Or.inl rfl
    · intro j hj1 hj2 _
      omega
  | succ fuel ih =>
    intro i f l hfl hl hfuel
    simp only [kdLowerBoundF]
    by_cases hrec : 1 < l - f
    · rw [if_pos hrec]
      have hpb := findPivot_bounds S i f l
      have hmlt := midpos_lt f l (by omega)
      have hple : findPivot S i f l < l := by omega
      by_cases hB1 : noneLess (elt S (findPivot S i f l)) v = true
      · rw [if_pos hB1]
        have hIH := ih (nextAxis i) f (findPivot S i f l) (by omega) (by omega) (by omega)
        have hrle : kdLowerBoundF S v fuel (nextAxis i) f (findPivot S i f l) ≤
            findPivot S i f l := by
          rcases hIH.1 with h | h
          · omega
          · omega
        constructor
        · rcases hIH.1 with h | h
          · rw [h]
            exact Or.inr ⟨by omega, by omega, hB1⟩
          · exact Or.inr ⟨h.1, by omega, h.2.2⟩
        · intro j hj1 _ hj3
          exact hIH.2 j hj1 (by omega) hj3
      · rw [if_neg hB1]
        by_cases hB2 : allLess (elt S (findPivot S i f l)) v = true
        · rw [if_pos hB2]
          have hIH := ih (nextAxis i) (findPivot S i f l + 1) l (by omega) hl (by omega)
          have hkey : ∀ j, f ≤ j → j ≤ findPivot S i f l → noneLess (elt S j) v = false := by
            intro j hj1 hj2
            rcases Nat.lt_or_ge j (findPivot S i f l) with hjp | hjp
            · by_contra hq
              rw [Bool.not_eq_false] at hq
              have hdom : ∀ i' : Fin k,
                  kdLess i' (elt S (findPivot S i f l)) (elt S j) = true := by
                intro i'
                apply kdLess_of_allLt
                intro ax
                exact lt_of_lt_of_le (allLess_iff.mp hB2 ax) (noneLess_iff.mp hq ax)
              have := hS (findPivot S i f l) j (by omega) (by omega) hdom
              omega
            · have hjeq : j = findPivot S i f l := by omega
              rw [hjeq]
              exact Bool.eq_false_iff.mpr hB1
          constructor
          · rcases hIH.1 with h | h
            · rw [h]
              exact Or.inl rfl
            · exact Or.inr ⟨by omega, h.2.1, h.2.2⟩
          · intro j hj1 hj2 hj3
            rcases Nat.lt_or_ge (findPivot S i f l) j with hjp | hjp
            · exact hIH.2 j (by omega) hj2 hj3
            · exact hkey j hj1 (by omega)
        · rw [if_neg hB2]
          have hIHL := ih (nextAxis i) f (findPivot S i f l) (by omega) (by omega) (by omega)
          by_cases hit : noneLess
              (elt S (kdLowerBoundF S v fuel (nextAxis i) f (findPivot S i f l))) v = true
          · rw [if_pos hit]
            have hit_lt : kdLowerBoundF S v fuel (nextAxis i) f (findPivot S i f l) <
                findPivot S i f l := by
              rcases hIHL.1 with h | h
              · rw [h] at hit
                exact absurd hit hB1
              · exact h.2.1
            have hit_ge : f ≤ kdLowerBoundF S v fuel (nextAxis i) f (findPivot S i f l) := by
              rcases hIHL.1 with h | h
              · rw [h] at hit
                exact absurd hit hB1
              · exact h.1
            constructor
            · exact Or.inr ⟨hit_ge, by omega, hit⟩
            · intro j hj1 _ hj3
              exact hIHL.2 j hj1 (by omega) hj3
          · rw [if_neg hit]
            have hitep : kdLowerBoundF S v fuel (nextAxis i) f (findPivot S i f l) =
                findPivot S i f l := by
              rcases hIHL.1 with h | h
              · exact h
              · exact absurd h.2.2 hit
            have hleft : ∀ j, f ≤ j → j < findPivot S i f l →
                noneLess (elt S j) v = false := by
              intro j hj1 hj2
              refine hIHL.2 j hj1 hj2 ?_
              rw [hitep]
              exact hj2
            have hIHR := ih (nextAxis i) (findPivot S i f l + 1) l (by omega) hl (by omega)
            by_cases hit2 : noneLess
                (elt S (kdLowerBoundF S v fuel (nextAxis i) (findPivot S i f l + 1) l)) v = true
            · rw [if_pos hit2]
              constructor
              · rcases hIHR.1 with h | h
                · rw [h]
                  exact Or.inl rfl
                · exact Or.inr ⟨by omega, h.2.1, h.2.2⟩
              · intro j hj1 hj2 hj3
                rcases Nat.lt_trichotomy j (findPivot S i f l) with hjc | hjc | hjc
                · exact hleft j hj1 hjc
                · rw [hjc]
                  exact Bool.eq_false_iff.mpr hB1
                · exact hIHR.2 j (by omega) hj2 hj3
            · rw [if_neg hit2]
              have hit2ep : kdLowerBoundF S v fuel (nextAxis i) (findPivot S i f l + 1) l
                  = l := by
                rcases hIHR.1 with h | h
                · exact h
                · exact absurd h.2.2 hit2
              constructor
              · exact Or.inl rfl
              · intro j hj1 hj2 _
                rcases Nat.lt_trichotomy j (findPivot S i f l) with hjc | hjc | hjc
                · exact hleft j hj1 hjc
                · rw [hjc]
                  exact Bool.eq_false_iff.mpr hB1
                · refine hIHR.2 j (by omega) hj2 ?_
                  rw [hit2ep]
                  exact hj2
    · rw [if_neg hrec]
      by_cases hq : noneLess (elt S f) v = true
      · rw [if_pos hq]
        constructor
        · rcases Nat.eq_or_lt_of_le hfl with he | hlt
          · exact Or.inl he
          · exact Or.inr ⟨le_refl f, hlt, hq⟩
        · intro j hj1 _ hj3
          omega
      · rw [if_neg hq]
        constructor
        · exact Or.inl rfl
        · intro j hj1 hj2 _
          have hjf : j = f := by omega
          rw [hjf]
          exact Bool.eq_false_iff.mpr hq

/-- C6: for every k-d-sorted sequence S and query value v, kd_lower_bound
returns the leftmost position p of the range with none_less (elt p, v), or
last if no position qualifies: the result satisfies
(p = last or none_less (elt p, v)) and no earlier position qualifies. -/
theorem c6_lower_bound_correct {k : Nat} [NeZero k] (S : List (Tup k)) (v : Tup k)
    (h : KdSorted S) :
    (kdLowerBound S v = S.length ∨ noneLess (elt S (kdLowerBound S v)) v = true) ∧
    kdLowerBound S v ≤ S.length ∧
    (∀ j, j < kdLowerBound S v → noneLess (elt S j) v = false) := by
  have hS : ∀ a b : Nat, a < S.length → b < S.length →
      (∀ i' : Fin k, kdLess i' (elt S a) (elt S b) = true) → a < b := by
    intro a b ha hb hd
    exact kdSegInv_pos_of_lex S.length (0 : Fin k) S le_rfl h a b ha hb hd
  have hmain := kdLowerBoundF_spec S v hS S.length (0 : Fin k) 0 S.length
    (Nat.zero_le _) le_rfl le_rfl
  unfold kdLowerBound
  refine ⟨?_, ?_, ?_⟩
  · rcases hmain.1 with h2 | h2
    · exact Or.inl h2
    · exact Or.inr h2.2.2
  · rcases hmain.1 with h2 | h2
    · omega
    · omega
  · intro j hj
    have hjl : j < S.length := by
      rcases hmain.1 with h2 | h2 <;> omega
    exact hmain.2 j (Nat.zero_le _) hjl hj

theorem c6_witness :
    KdSorted ([![1, 1], ![2, 2]] : List (Tup 2)) ∧
    ((kdLowerBound ([![1, 1], ![2, 2]] : List (Tup 2)) ![2, 0] =
        ([![1, 1], ![2, 2]] : List (Tup 2)).length ∨
      noneLess (elt ([![1, 1], ![2, 2]] : List (Tup 2))
        (kdLowerBound ([![1, 1], ![2, 2]] : List (Tup 2)) ![2, 0])) ![2, 0] = true) ∧
    kdLowerBound ([![1, 1], ![2, 2]] : List (Tup 2)) ![2, 0] ≤
      ([![1, 1], ![2, 2]] : List (Tup 2)).length ∧
    (∀ j, j < kdLowerBound ([![1, 1], ![2, 2]] : List (Tup 2)) ![2, 0] →
      noneLess (elt ([![1, 1], ![2, 2]] : List (Tup 2)) j) ![2, 0] = false)) :=
  ⟨by decide, c6_lower_bound_correct [![1, 1], ![2, 2]] ![2, 0] (by decide)⟩

/-- C7: for every k-d-sorted sequence S and query value v, kd_binary_search
answers whether some element of S equals v componentwise (none_less both
ways), computed as: kd_lower_bound yields a position p different from last
with none_less (v, elt p). -/
theorem c7_binary_search_iff {k : Nat} [NeZero k] (S : List (Tup k)) (v : Tup k)
    (h : KdSorted S) :
    kdBinarySearch S v = true ↔
      ∃ x ∈ S, noneLess v x = true ∧ noneLess x v = true := by
  have hS : ∀ a b : Nat, a < S.length → b < S.length →
      (∀ i' : Fin k, kdLess i' (elt S a) (elt S b) = true) → a < b := by
    intro a b ha hb hd
    exact kdSegInv_pos_of_lex S.length (0 : Fin k) S le_rfl h a b ha hb hd
  have hmain := kdLowerBoundF_spec S v hS S.length (0 : Fin k) 0 S.length
    (Nat.zero_le _) le_rfl le_rfl
  unfold kdBinarySearch kdLowerBound
  simp only [Bool.and_eq_true, decide_eq_true_eq]
  constructor
  · rintro ⟨hne, hvr⟩
    rcases hmain.1 with h2 | h2
    · exact absurd h2 hne
    · exact ⟨elt S (kdLowerBoundF S v S.length (0 : Fin k) 0 S.length),
        getD_mem S _ default (by omega), hvr, h2.2.2⟩
  · rintro ⟨x, hxmem, hvx, hxv⟩
    have hxveq : x = v := noneLess_antisymm hxv hvx
    obtain ⟨jx, hjx, hjxe⟩ := List.mem_iff_getElem.mp hxmem
    have hvj : elt S jx = v := by
      rw [elt, List.getD_eq_getElem _ _ hjx, hjxe, hxveq]
    rcases hmain.1 with h2 | h2
    · exfalso
      have hcontra := hmain.2 jx (Nat.zero_le _) hjx (by rw [h2]; exact hjx)
      rw [hvj, noneLess_refl] at hcontra
      exact absurd hcontra (by simp)
    · refine ⟨by omega, ?_⟩
      by_contra hvr
      have hne : elt S (kdLowerBoundF S v S.length (0 : Fin k) 0 S.length) ≠ v := by
        intro he
        rw [he, noneLess_refl] at hvr
        exact hvr rfl
      have hlex : ∀ i' : Fin k,
          kdLess i' v (elt S (kdLowerBoundF S v S.length (0 : Fin k) 0 S.length)) = true := by
        apply kdLess_of_le_ne
        · intro j
          exact noneLess_iff.mp h2.2.2 j
        · intro he
          exact hne he.symm
      have hjr := hS jx (kdLowerBoundF S v S.length (0 : Fin k) 0 S.length) hjx (by omega)
        (by intro i'; rw [hvj]; exact hlex i')
      have hcontra := hmain.2 jx (Nat.zero_le _) hjx hjr
      rw [hvj, noneLess_refl] at hcontra
      exact absurd hcontra (by simp)

theorem c7_witness :
    KdSorted ([![1, 1], ![2, 2]] : List (Tup 2)) ∧
    (kdBinarySearch ([![1, 1], ![2, 2]] : List (Tup 2)) ![2, 2] = true ↔
      ∃ x ∈ ([![1, 1], ![2, 2]] : List (Tup 2)),
        noneLess ![2, 2] x = true ∧ noneLess x ![2, 2] = true) :=
  ⟨by decide, c7_binary_search_iff [![1, 1], ![2, 2]] ![2, 2] (by decide)⟩

/-! ### The eps variant at eps = 0 -/

theorem sqrtLt_zero (s : ℤ) : sqrtLt s 0 = false := by
  simp [sqrtLt]

theorem kdNNepsF_zero {k : Nat} (S : List (Tup k)) (v : Tup k) :
    ∀ (fuel : Nat) (i : Fin k) (f l : Nat),
      kdNNepsF S v 0 fuel i f l = kdNNF S v fuel i f l := by
  intro fuel
  induction fuel with
  | zero => intro i f l; rfl
  | succ fuel ih =>
    intro i f l
    simp only [kdNNepsF, kdNNF, ih, sqrtLt_zero, add_zero, Bool.false_eq_true, if_false]

/-- C9: the eps overload of kd_nearest_neighbor called with eps = 0 returns
exactly the same position as the exact variant, on every sequence and
query (in particular on every k-d-sorted one). -/
theorem c9_eps_zero_equals_exact {k : Nat} [NeZero k] (S : List (Tup k)) (v : Tup k) :
    kdNearestNeighborEps S v 0 = kdNearestNeighbor S v := by
  unfold kdNearestNeighborEps kdNearestNeighbor
  exact kdNNepsF_zero S v S.length (0 : Fin k) 0 S.length

theorem c9_witness :
    kdNearestNeighborEps ([![1, 1], ![2, 2]] : List (Tup 2)) ![0, 1] 0 =
      kdNearestNeighbor ([![1, 1], ![2, 2]] : List (Tup 2)) ![0, 1] :=
  c9_eps_zero_equals_exact ([![1, 1], ![2, 2]] : List (Tup 2)) ![0, 1]

/-! ### Queue invariants -/

/-- The queue is sorted by descending key, head (the heap top) first. -/
def qSortedDesc (q : List (ℤ × Nat)) : Prop :=
  List.Pairwise (fun x y => y.1 ≤ x.1) q

theorem nbInsert_mem {d : ℤ} {j : Nat} {q : List (ℤ × Nat)} {x : ℤ × Nat}
    (h : x ∈ nbInsert d j q) : x = (d, j) ∨ x ∈ q := by
  induction q with
  | nil => simpa [nbInsert] using h
  | cons y rest ih =>
    simp only [nbInsert] at h
    by_cases hy : y.1 ≤ d
    · rw [if_pos hy] at h
      rcases List.mem_cons.mp h with h | h
      · exact Or.inl h
      · exact Or.inr h
    · rw [if_neg hy] at h
      rcases List.mem_cons.mp h with h | h
      · exact Or.inr (by rw [h]; exact List.mem_cons_self _ _)
      · rcases ih h with h | h
        · exact Or.inl h
        · exact Or.inr (List.mem_cons_of_mem _ h)

theorem mem_nbInsert_self (d : ℤ) (j : Nat) (q : List (ℤ × Nat)) :
    (d, j) ∈ nbInsert d j q := by
  induction q with
  | nil => simp [nbInsert]
  | cons y rest ih =>
    simp only [nbInsert]
    by_cases hy : y.1 ≤ d
    · rw [if_pos hy]
      exact List.mem_cons_self _ _
    · rw [if_neg hy]
      exact List.mem_cons_of_mem _ ih

theorem mem_nbInsert_of_mem {d : ℤ} {j : Nat} {q : List (ℤ × Nat)} {x : ℤ × Nat}
    (h : x ∈ q) : x ∈ nbInsert d j q := by
  induction q with
  | nil => simp at h
  | cons y rest ih =>
    simp only [nbInsert]
    by_cases hy : y.1 ≤ d
    · rw [if_pos hy]
      exact List.mem_cons_of_mem _ h
    · rw [if_neg hy]
      rcases List.mem_cons.mp h with h | h
      · rw [h]
        exact List.mem_cons_self _ _
      · exact List.mem_cons_of_mem _ (ih h)

theorem nbInsert_length (d : ℤ) (j : Nat) (q : List (ℤ × Nat)) :
    (nbInsert d j q).length = q.length + 1 := by
  induction q with
  | nil => rfl
  | cons y rest ih =>
    simp only [nbInsert]
    by_cases hy : y.1 ≤ d
    · rw [if_pos hy]
      rfl
    · rw [if_neg hy]
      simp [ih]

theorem nbInsert_sorted {d : ℤ} {j : Nat} {q : List (ℤ × Nat)}
    (h : qSortedDesc q) : qSortedDesc (nbInsert d j q) := by
  induction q with
  | nil => simp [nbInsert, qSortedDesc]
  | cons y rest ih =>
    simp only [nbInsert]
    rcases List.pairwise_cons.mp h with ⟨hy, hrest⟩
    by_cases hyd : y.1 ≤ d
    · rw [if_pos hyd]
      refine List.pairwise_cons.mpr ⟨?_, h⟩
      intro z hz
      rcases List.mem_cons.mp hz with hz | hz
      · rw [hz]
        exact hyd
      · exact le_trans (hy z hz) hyd
    · rw [if_neg hyd]
      refine List.pairwise_cons.mpr ⟨?_, ih hrest⟩
      intro z hz
      rcases nbInsert_mem hz with hz | hz
      · rw [hz]
        exact le_of_lt (lt_of_not_le hyd)
      · exact hy z hz

theorem qSortedDesc_tail {q : List (ℤ × Nat)} (h : qSortedDesc q) :
    qSortedDesc q.tail := by
  cases q with
  | nil => exact h
  | cons y rest => exact (List.pairwise_cons.mp h).2

theorem nbAdd_cap (b : NBest) (d : ℤ) (j : Nat) : (nbAdd b d j).cap = b.cap := rfl

theorem nbAdd_sorted {b : NBest} (h : qSortedDesc b.q) (d : ℤ) (j : Nat) :
    qSortedDesc (nbAdd b d j).q := by
  unfold nbAdd
  by_cases hc : b.cap < (nbInsert d j b.q).length
  · simp only [if_pos hc]
    exact qSortedDesc_tail (nbInsert_sorted h)
  · simp only [if_neg hc]
    exact nbInsert_sorted h

theorem nbAdd_q (b : NBest) (d : ℤ) (j : Nat) :
    (nbAdd b d j).q = if b.cap < (nbInsert d j b.q).length then (nbInsert d j b.q).tail
      else nbInsert d j b.q := rfl

theorem nbAdd_length {b : NBest} (h : b.q.length ≤ b.cap) (d : ℤ) (j : Nat) :
    (nbAdd b d j).q.length ≤ b.cap := by
  rw [nbAdd_q]
  by_cases hc : b.cap < (nbInsert d j b.q).length
  · rw [if_pos hc, List.length_tail, nbInsert_length]
    rw [nbInsert_length] at hc
    omega
  · rw [if_neg hc, nbInsert_length]
    rw [nbInsert_length] at hc
    omega

theorem nbAdd_mem {b : NBest} {d : ℤ} {j : Nat} {x : ℤ × Nat}
    (h : x ∈ (nbAdd b d j).q) : x = (d, j) ∨ x ∈ b.q := by
  unfold nbAdd at h
  by_cases hc : b.cap < (nbInsert d j b.q).length
  · simp only [if_pos hc] at h
    exact nbInsert_mem (List.mem_of_mem_tail h)
  · simp only [if_neg hc] at h
    exact nbInsert_mem h

/-- All queue states reached by knn are well formed: sorted descending,
within capacity, and every key is the squared distance of the recorded
position to the query. -/
theorem knnF_inv {k : Nat} (S : List (Tup k)) (v : Tup k) :
    ∀ (fuel : Nat) (i : Fin k) (f l : Nat) (b : NBest),
      qSortedDesc b.q → b.q.length ≤ b.cap →
      (∀ x ∈ b.q, x.1 = ssq (elt S x.2) v) →
      (knnF S v fuel i f l b).cap = b.cap ∧
      qSortedDesc (knnF S v fuel i f l b).q ∧
      (knnF S v fuel i f l b).q.length ≤ b.cap ∧
      (∀ x ∈ (knnF S v fuel i f l b).q, x.1 = ssq (elt S x.2) v) := by
  intro fuel
  induction fuel with
  | zero =>
    intro i f l b h1 h2 h3
    exact ⟨rfl, h1, h2, h3⟩
  | succ fuel ih =>
    intro i f l b h1 h2 h3
    have haddinv : ∀ (d : ℤ) (j : Nat), d = ssq (elt S j) v →
        qSortedDesc (nbAdd b d j).q ∧ (nbAdd b d j).q.length ≤ b.cap ∧
        (∀ x ∈ (nbAdd b d j).q, x.1 = ssq (elt S x.2) v) := by
      intro d j hd
      refine ⟨nbAdd_sorted h1 d j, nbAdd_length h2 d j, ?_⟩
      intro x hx
      rcases nbAdd_mem hx with hx | hx
      · rw [hx, hd]
      · exact h3 x hx
    simp only [knnF]
    by_cases hd1 : l - f = 1
    · rw [if_pos hd1]
      exact ⟨rfl, (haddinv _ f rfl).1, (haddinv _ f rfl).2.1, (haddinv _ f rfl).2.2⟩
    · rw [if_neg hd1]
      by_cases hd0 : l - f = 0
      · rw [if_pos hd0]
        exact ⟨rfl, h1, h2, h3⟩
      · rw [if_neg hd0]
        have hb1 := haddinv (ssq (elt S (findPivot S i f l)) v) (findPivot S i f l) rfl
        have hcap1 : (nbAdd b (ssq (elt S (findPivot S i f l)) v) (findPivot S i f l)).cap
            = b.cap := rfl
        by_cases hsl : lessNth i v (elt S (findPivot S i f l)) = true
        · simp only [if_pos hsl]
          have hmid := ih (nextAxis i) f (findPivot S i f l) _ hb1.1 (hcap1 ▸ hb1.2.1) hb1.2.2
          rcases hmid with ⟨hm0, hm1, hm2, hm3⟩
          rw [hcap1] at hm0 hm2
          split
          · have := ih (nextAxis i) (findPivot S i f l + 1) l _ hm1 (hm0 ▸ hm2) hm3
            rcases this with ⟨hq0, hq1, hq2, hq3⟩
            rw [hm0] at hq0 hq2
            exact ⟨hq0, hq1, hq2, hq3⟩
          · exact ⟨hm0, hm1, hm2, hm3⟩
        · simp only [if_neg hsl]
          have hmid := ih (nextAxis i) (findPivot S i f l + 1) l _ hb1.1 (hcap1 ▸ hb1.2.1) hb1.2.2
          rcases hmid with ⟨hm0, hm1, hm2, hm3⟩
          rw [hcap1] at hm0 hm2
          split
          · have := ih (nextAxis i) f (findPivot S i f l) _ hm1 (hm0 ▸ hm2) hm3
            rcases this with ⟨hq0, hq1, hq2, hq3⟩
            rw [hm0] at hq0 hq2
            exact ⟨hq0, hq1, hq2, hq3⟩
          · exact ⟨hm0, hm1, hm2, hm3⟩

/-- C10: for every sequence, query value and capacity, kd_nearest_neighbors
emits at most n positions, in non-increasing order of distance to the
query (farthest first), because the bounded queue is a max-heap on
distance whose add caps the size at n by popping the maximum and whose
copy emits by repeatedly popping the top. -/
theorem c10_knn_emits_at_most_n_in_order {k : Nat} [NeZero k] (S : List (Tup k))
    (v : Tup k) (n : Nat) :
    (kdNearestNeighbors S v n).length ≤ n ∧
    List.Chain' (fun a b => l2dist b v ≤ l2dist a v) (kdNearestNeighbors S v n) := by
  have hinv := knnF_inv S v S.length (0 : Fin k) 0 S.length (nbEmpty n)
    List.Pairwise.nil (by simp [nbEmpty]) (by simp [nbEmpty])
  obtain ⟨hcap, hsort, hlen, hkeys⟩ := hinv
  unfold kdNearestNeighbors nbCopy
  constructor
  · rw [List.length_map]
    exact hlen
  · rw [List.chain'_map]
    refine List.Pairwise.chain' ?_
    refine List.Pairwise.imp_of_mem ?_ hsort
    intro x y hx hy hxy
    have hkx := hkeys x hx
    have hky := hkeys y hy
    unfold l2dist
    apply Real.sqrt_le_sqrt
    rw [← hkx, ← hky]
    exact_mod_cast hxy

theorem c10_witness :
    (kdNearestNeighbors ([![0, 0], ![3, 4]] : List (Tup 2)) ![0, 0] 2).length ≤ 2 ∧
    List.Chain' (fun a b => l2dist b ![0, 0] ≤ l2dist a ![0, 0])
      (kdNearestNeighbors ([![0, 0], ![3, 4]] : List (Tup 2)) ![0, 0] 2) :=
  c10_knn_emits_at_most_n_in_order ([![0, 0], ![3, 4]] : List (Tup 2)) ![0, 0] 2

/-! ### The under-full queue and its worst key -/

/-- A queue state built by a sequence of add operations from the empty
queue of capacity n; every queue state that knn reaches has this form. -/
def nbBuild (n : Nat) (L : List (ℤ × Nat)) : NBest :=
  L.foldl (fun b x => nbAdd b x.1 x.2) (nbEmpty n)

theorem nbAdd_q_of_lt {b : NBest} (h : b.q.length < b.cap) (d : ℤ) (j : Nat) :
    (nbAdd b d j).q = nbInsert d j b.q := by
  rw [nbAdd_q, if_neg]
  rw [nbInsert_length]
  omega

theorem foldl_add_build : ∀ (L : List (ℤ × Nat)) (b : NBest),
    b.q.length + L.length ≤ b.cap →
    (L.foldl (fun b x => nbAdd b x.1 x.2) b).q.length = b.q.length + L.length ∧
    (L.foldl (fun b x => nbAdd b x.1 x.2) b).cap = b.cap ∧
    ∀ x : ℤ × Nat, (x ∈ L ∨ x ∈ b.q) →
      x ∈ (L.foldl (fun b x => nbAdd b x.1 x.2) b).q := by
  intro L
  induction L with
  | nil =>
    intro b h
    refine ⟨by simp, rfl, ?_⟩
    intro x hx
    rcases hx with hx | hx
    · simp at hx
    · exact hx
  | cons y L2 ih =>
    intro b h
    have hlt : b.q.length < b.cap := by
      simp only [List.length_cons] at h
      omega
    have hq : (nbAdd b y.1 y.2).q = nbInsert y.1 y.2 b.q := nbAdd_q_of_lt hlt y.1 y.2
    have hql : (nbAdd b y.1 y.2).q.length = b.q.length + 1 := by
      rw [hq, nbInsert_length]
    have hcap : (nbAdd b y.1 y.2).cap = b.cap := rfl
    have hih := ih (nbAdd b y.1 y.2) (by rw [hql, hcap]; simp only [List.length_cons] at h; omega)
    simp only [List.foldl_cons]
    refine ⟨?_, ?_, ?_⟩
    · rw [hih.1, hql]
      simp only [List.length_cons]
      omega
    · rw [hih.2.1, hcap]
    · intro x hx
      rcases hx with hx | hx
      · rcases List.mem_cons.mp hx with hx | hx
        · refine hih.2.2 x (Or.inr ?_)
          rw [hq, hx]
          have := mem_nbInsert_self y.1 y.2 b.q
          simpa using this
        · exact hih.2.2 x (Or.inl hx)
      · refine hih.2.2 x (Or.inr ?_)
        rw [hq]
        exact mem_nbInsert_of_mem hx

theorem foldl_add_sorted : ∀ (L : List (ℤ × Nat)) (b : NBest),
    qSortedDesc b.q → qSortedDesc ((L.foldl (fun b x => nbAdd b x.1 x.2) b).q) := by
  intro L
  induction L with
  | nil => intro b h; exact h
  | cons y L2 ih =>
    intro b h
    simp only [List.foldl_cons]
    exact ih _ (nbAdd_sorted h y.1 y.2)

theorem maxKey_ge_of_mem {b : NBest} (hs : qSortedDesc b.q) {x : ℤ × Nat}
    (hx : x ∈ b.q) : (x.1 : WithTop ℤ) ≤ nbMaxKey b := by
  cases hq : b.q with
  | nil =>
    rw [hq] at hx
    simp at hx
  | cons y rest =>
    have hmk : nbMaxKey b = (y.1 : WithTop ℤ) := by
      unfold nbMaxKey
      rw [hq]
    rw [hmk]
    rw [hq] at hx
    rcases List.mem_cons.mp hx with hx | hx
    · rw [hx]
    · exact WithTop.coe_le_coe.mpr ((List.pairwise_cons.mp (hq ▸ hs)).1 x hx)

/-- C1 counterexample: a queue of capacity 2 holding one element is not yet
full, but max_key reports the stored key, not the sentinel. -/
theorem c1_max_key_not_top_when_underfull :
    (nbAdd (nbEmpty 2) 5 0).q.length < 2 ∧
    nbMaxKey (nbAdd (nbEmpty 2) 5 0) ≠ ⊤ := by
  constructor
  · decide
  · intro h
    simp [nbAdd, nbEmpty, nbInsert, nbMaxKey] at h

/-- C1 amended: max_key returns the sentinel exactly when the queue is
empty, not whenever it is under-full; nevertheless, while fewer than n
elements have been added nothing has ever been popped, so the worst key
dominates every key added so far, and hence any axis gap bounded by such a
key (in knn the pivot distance just added) still passes the pruning
test. -/
theorem c1_underfull_worst_key_dominates (n : Nat) (L : List (ℤ × Nat))
    (hlen : L.length < n) (d : ℤ) (j : Nat) (hmem : (d, j) ∈ L) (g : ℤ) (hg : g ≤ d) :
    (∀ b : NBest, nbMaxKey b = ⊤ ↔ b.q = []) ∧
    (g : WithTop ℤ) ≤ nbMaxKey (nbBuild n L) := by
  constructor
  · intro b
    cases hq : b.q with
    | nil =>
      have : nbMaxKey b = ⊤ := by unfold nbMaxKey; rw [hq]
      simp [this]
    | cons y rest =>
      have : nbMaxKey b = (y.1 : WithTop ℤ) := by unfold nbMaxKey; rw [hq]
      simp [this]
  · have haux := foldl_add_build L (nbEmpty n) (by simp only [nbEmpty]; simp; omega)
    have hsorted := foldl_add_sorted L (nbEmpty n) List.Pairwise.nil
    have hmem2 := haux.2.2 (d, j) (Or.inl hmem)
    have hge := maxKey_ge_of_mem hsorted hmem2
    refine le_trans ?_ hge
    exact WithTop.coe_le_coe.mpr hg

theorem c1_witness :
    [((5 : ℤ), 0)].length < 2 ∧ ((5 : ℤ), 0) ∈ [((5 : ℤ), 0)] ∧ (3 : ℤ) ≤ 5 ∧
    ((∀ b : NBest, nbMaxKey b = ⊤ ↔ b.q = []) ∧
      ((3 : ℤ) : WithTop ℤ) ≤ nbMaxKey (nbBuild 2 [((5 : ℤ), 0)])) :=
  ⟨by decide, by decide, by norm_num,
    c1_underfull_worst_key_dominates 2 [((5 : ℤ), 0)] (by decide) 5 0 (by decide) 3
      (by norm_num)⟩

/-! ### Bridges between the squared-distance encodings and real square
roots: each comparison performed by the embedding agrees with the source
comparison on real numbers. -/

theorem ltSqrt_iff (t s : ℤ) :
    ltSqrt t s = true ↔ (t : ℝ) < Real.sqrt ((s : ℤ) : ℝ) := by
  unfold ltSqrt
  rw [Bool.or_eq_true, decide_eq_true_eq, decide_eq_true_eq]
  constructor
  · rintro (ht | ht)
    · exact lt_of_lt_of_le (by exact_mod_cast ht : (t : ℝ) < 0) (Real.sqrt_nonneg _)
    · by_cases htn : t < 0
      · exact lt_of_lt_of_le (by exact_mod_cast htn : (t : ℝ) < 0) (Real.sqrt_nonneg _)
      · have ht2 : (0 : ℝ) ≤ (t : ℝ) := by
          push_neg at htn
          exact_mod_cast htn
        rw [Real.lt_sqrt ht2]
        exact_mod_cast ht
  · intro h
    by_cases htn : t < 0
    · exact Or.inl htn
    · right
      have ht2 : (0 : ℝ) ≤ (t : ℝ) := by
        push_neg at htn
        exact_mod_cast htn
      rw [Real.lt_sqrt ht2] at h
      exact_mod_cast h

theorem sqrtLt_iff (s q : ℤ) :
    sqrtLt s q = true ↔ Real.sqrt ((s : ℤ) : ℝ) < (q : ℝ) := by
  unfold sqrtLt
  rw [Bool.and_eq_true, decide_eq_true_eq, decide_eq_true_eq]
  constructor
  · rintro ⟨hq, hs⟩
    have hq2 : (0 : ℝ) < (q : ℝ) := by exact_mod_cast hq
    rw [Real.sqrt_lt' hq2]
    exact_mod_cast hs
  · intro h
    have hq : (0 : ℝ) < (q : ℝ) := lt_of_le_of_lt (Real.sqrt_nonneg _) h
    refine ⟨by exact_mod_cast hq, ?_⟩
    rw [Real.sqrt_lt' hq] at h
    exact_mod_cast h

theorem ssq_lt_iff_l2dist_lt {k : Nat} (a b c d : Tup k) :
    ssq a b < ssq c d ↔ l2dist a b < l2dist c d := by
  unfold l2dist
  constructor
  · intro h
    apply Real.sqrt_lt_sqrt (by exact_mod_cast ssq_nonneg a b)
    exact_mod_cast h
  · intro h
    by_contra hle
    push_neg at hle
    have : Real.sqrt ((ssq c d : ℤ) : ℝ) ≤ Real.sqrt ((ssq a b : ℤ) : ℝ) :=
      Real.sqrt_le_sqrt (by exact_mod_cast hle)
    exact absurd (lt_of_lt_of_le h this) (lt_irrefl _)

/-! ### The nearest-neighbor counterexample with axis ties -/

/-- A 7-point input with ties on axis 0 between (5,1) and (5,5).  Any
conforming nth_element produces the same kd_sort output on it, because at
every level the median and the two side sets are uniquely determined. -/
def cexInput : List (Tup 2) :=
  [![1, 2], ![4, 0], ![5, 1], ![5, 5], ![8, 8], ![9, 9], ![9, 10]]

/-- The kd_sort output of cexInput.  During descent, find_pivot for the
whole range binary-searches [0, 3) for the first axis-0 value not below 5
on the unpartitioned prefix (4,0), (5,1), (1,2) and lands at position 1,
so the descent treats (5,1) as the discriminator and places position 2,
holding (1,2), in the right subtree. -/
def cexSorted : List (Tup 2) :=
  [![4, 0], ![5, 1], ![1, 2], ![5, 5], ![8, 8], ![9, 9], ![9, 10]]

/-- C4 evaluated at the failing input: cexSorted is the kd_sort output of
cexInput, satisfies both the literal section-3 invariant and the layout
invariant, yet the exact nearest-neighbor query for (0,0) returns
position 0 whose element (4,0) lies at distance 4, while the element
(1,2) at position 2 of the range lies at distance sqrt 5 < 4. -/
theorem c4_nn_misses_true_neighbor :
    kdSort cexInput = cexSorted ∧
    specKdOrder cexSorted = true ∧
    KdSorted cexSorted ∧
    kdNearestNeighbor cexSorted ![0, 0] = 0 ∧
    (2 : Nat) < cexSorted.length ∧
    ssq (elt cexSorted 2) ![0, 0] < ssq (elt cexSorted 0) ![0, 0] ∧
    l2dist (elt cexSorted 2) ![0, 0] < l2dist (elt cexSorted 0) ![0, 0] := by
  refine ⟨by decide, by decide, by decide, by decide, by decide, by decide, ?_⟩
  exact (ssq_lt_iff_l2dist_lt _ _ _ _).mp (by decide)

/-- C2 evaluated at the failing input: with capacity n = 1 (and
1 ≤ n ≤ length = 7), kd_nearest_neighbors on cexSorted emits exactly the
element (4,0) with squared distance 16 to the query (0,0), while the
smallest squared distance over the sequence is 5 (attained by (1,2)); the
emitted distance multiset is not the multiset of the 1 smallest
distances. -/
theorem c2_knn_emits_wrong_multiset :
    kdSort cexInput = cexSorted ∧
    KdSorted cexSorted ∧
    1 ≤ cexSorted.length ∧
    kdNearestNeighbors cexSorted ![0, 0] 1 = [![4, 0]] ∧
    ((kdNearestNeighbors cexSorted ![0, 0] 1).map fun x => ssq x ![0, 0]) = [16] ∧
    (cexSorted.map fun x => ssq x ![0, 0]).min? = some 5 ∧
    ![1, 2] ∈ cexSorted ∧
    l2dist ![1, 2] ![0, 0] < l2dist ![4, 0] ![0, 0] := by
  refine ⟨by decide, by decide, by decide, by decide, by decide, by decide, by decide, ?_⟩
  exact (ssq_lt_iff_l2dist_lt _ _ _ _).mp (by decide)

/-! ### Reads performed on an empty range -/

/-- The positions dereferenced by one partition_point call: every probe
reads the probed element (the bound copy of the midpos element is recorded
by the caller). -/
def ppReadsF (pred : Nat → Bool) : Nat → Nat → Nat → List Nat
  | 0, _, _ => []
  | fuel + 1, f, len =>
    if len = 0 then []
    else
      (f + len / 2) ::
        (if pred (f + len / 2) then ppReadsF pred fuel (f + len / 2 + 1) (len - len / 2 - 1)
         else ppReadsF pred fuel f (len / 2))

/-- The positions dereferenced by find_pivot: the midpos element captured
by std bind, then the probes. -/
def findPivotReads {k : Nat} (S : List (Tup k)) (i : Fin k) (f l : Nat) : List Nat :=
  midpos f l ::
    ppReadsF (fun j => lessNth i (elt S j) (elt S (midpos f l))) (midpos f l - f) f
      (midpos f l - f)

/-- The positions dereferenced by kd_lower_bound, in evaluation order:
mirrors the recursion of kdLowerBoundF, recording the argument of every
iterator dereference (the pivot tests, the subcall reads, and the checks
of the subcall results). -/
def kdLowerBoundReadsF {k : Nat} (S : List (Tup k)) (v : Tup k) :
    Nat → Fin k → Nat → Nat → List Nat
  | 0, _, f, _ => [f]
  | fuel + 1, i, f, l =>
    if 1 < l - f then
      findPivotReads S i f l ++ [findPivot S i f l] ++
        (if noneLess (elt S (findPivot S i f l)) v then
          kdLowerBoundReadsF S v fuel (nextAxis i) f (findPivot S i f l)
         else
          [findPivot S i f l] ++
            (if allLess (elt S (findPivot S i f l)) v then
              kdLowerBoundReadsF S v fuel (nextAxis i) (findPivot S i f l + 1) l
             else
              kdLowerBoundReadsF S v fuel (nextAxis i) f (findPivot S i f l) ++
                [kdLowerBoundF S v fuel (nextAxis i) f (findPivot S i f l)] ++
                (if noneLess (elt S (kdLowerBoundF S v fuel (nextAxis i) f
                    (findPivot S i f l))) v then []
                 else
                  kdLowerBoundReadsF S v fuel (nextAxis i) (findPivot S i f l + 1) l ++
                    [kdLowerBoundF S v fuel (nextAxis i) (findPivot S i f l + 1) l])))
    else [f]

/-- The positions dereferenced by kd_upper_bound (symmetric). -/
def kdUpperBoundReadsF {k : Nat} (S : List (Tup k)) (v : Tup k) :
    Nat → Fin k → Nat → Nat → List Nat
  | 0, _, f, _ => [f]
  | fuel + 1, i, f, l =>
    if 1 < l - f then
      findPivotReads S i f l ++ [findPivot S i f l] ++
        (if allLess v (elt S (findPivot S i f l)) then
          kdUpperBoundReadsF S v fuel (nextAxis i) f (findPivot S i f l)
         else
          [findPivot S i f l] ++
            (if noneLess v (elt S (findPivot S i f l)) then
              kdUpperBoundReadsF S v fuel (nextAxis i) (findPivot S i f l + 1) l
             else
              kdUpperBoundReadsF S v fuel (nextAxis i) f (findPivot S i f l) ++
                [kdUpperBoundF S v fuel (nextAxis i) f (findPivot S i f l)] ++
                (if allLess v (elt S (kdUpperBoundF S v fuel (nextAxis i) f
                    (findPivot S i f l))) then []
                 else
                  kdUpperBoundReadsF S v fuel (nextAxis i) (findPivot S i f l + 1) l ++
                    [kdUpperBoundF S v fuel (nextAxis i) (findPivot S i f l + 1) l])))
    else [f]

/-- C3 evaluated on an empty range [f, f): each positional query returns
last = f, each sink emits nothing, but the base line of kd_lower_bound and
kd_upper_bound dereferences the iterator at position f = last, a read of
one element outside the (empty) range; the position f itself is not in
[f, f), so the out-of-bounds branch is reached, even though the value read
never changes the returned position. -/
theorem c3_empty_range_reads {k : Nat} (S : List (Tup k)) (v lo hi : Tup k)
    (eps : ℤ) (i : Fin k) (f : Nat) (b : NBest) (fuel : Nat) :
    kdLowerBoundF S v fuel i f f = f ∧
    kdUpperBoundF S v fuel i f f = f ∧
    kdNNF S v fuel i f f = f ∧
    kdNNepsF S v eps fuel i f f = f ∧
    kdRangeQueryF S lo hi fuel i f f = [] ∧
    knnF S v fuel i f f b = b ∧
    kdLowerBoundReadsF S v fuel i f f = [f] ∧
    kdUpperBoundReadsF S v fuel i f f = [f] ∧
    f ∉ List.range' f (f - f) := by
  cases fuel with
  | zero =>
    refine ⟨?_, ?_, rfl, rfl, rfl, rfl, rfl, rfl, by simp⟩
    · simp [kdLowerBoundF]
    · simp [kdUpperBoundF]
  | succ fuel =>
    refine ⟨?_, ?_, ?_, ?_, ?_, ?_, ?_, ?_, by simp⟩
    · simp [kdLowerBoundF]
    · simp [kdUpperBoundF]
    · simp [kdNNF]
    · simp [kdNNepsF]
    · simp [kdRangeQueryF]
    · simp [knnF]
    · simp [kdLowerBoundReadsF]
    · simp [kdUpperBoundReadsF]

/-! ### The split of one kd_sort level, against the library contracts

The source delegates the level split to std nth_element and std
partition.  The C++ standard specifies each call only up to a
postcondition; which arrangement a run leaves inside [first, midpos) and
inside each partition group is up to the library.  The split is therefore
treated relationally: NthElemPost and PartitionPost state the ISO
postconditions, the deterministic models nthElem and kdSortParts used by
the rest of the development are proved to be conforming refinements, and
the level-split facts are proved for every pair of conforming outcomes.
bidirPartition models the two-pointer algorithm mainstream standard
libraries execute for partition over bidirectional iterators; it is
conforming but moves elements of a group past each other, which refutes
the order-preservation reading of the split. -/

/-- The postcondition the C++ standard gives for the call
nth_element(first, pivot, last, pred) of kd_sort, at pivot = midpos and
pred = kd_less from axis i, stated on segments with m = length / 2: the
outcome is a permutation of the segment and no element at a position at
or beyond m is kd_less than an element at a position before m.  A
conforming library guarantees nothing more about the median-selection
step; in particular the arrangement inside [first, m) is unspecified. -/
def NthElemPost {k : Nat} (i : Fin k) (seg sel : List (Tup k)) : Bool :=
  decide (sel.Perm seg) &&
    (sel.take (seg.length / 2)).all fun x =>
      (sel.drop (seg.length / 2)).all fun y => !kdLess i y x

/-- The postcondition the C++ standard gives for partition(first, mid,
pred): the output range is a permutation of the input with the elements
satisfying pred placed before the others, and the returned point p is the
group boundary.  A conforming library guarantees nothing more about the
re-partition step; in particular the relative order inside each group is
unspecified. -/
def PartitionPost {k : Nat} (pred : Tup k → Bool) (xs ys : List (Tup k)) (p : Nat) : Bool :=
  decide (ys.Perm xs) && decide (p ≤ ys.length) &&
    ((ys.take p).all pred && (ys.drop p).all fun x => !pred x)

/-- Decompose a list around the last element satisfying pred: some (pre,
y, post) with xs = pre ++ y :: post, pred y true and pred false on all of
post, or none when no element satisfies pred.  This is the backward scan
of the bidirectional partition loop. -/
def splitLastTrue {α : Type _} (pred : α → Bool) : List α → Option (List α × α × List α)
  | [] => none
  | x :: rest =>
    match splitLastTrue pred rest with
    | some (pre, y, post) => some (x :: pre, y, post)
    | none => if pred x then some ([], x, rest) else none

/-- The two-pointer partition that mainstream standard libraries run for
partition over bidirectional iterators: skip a head satisfying pred; at
a failing head, scan backward for the last element satisfying pred, swap
the two and continue strictly between them, the swapped tail staying in
place.  It meets PartitionPost but moves elements of a group past each
other.  Fuel bounds the recursion; the list length always suffices. -/
def bidirPartition {α : Type _} (pred : α → Bool) : Nat → List α → List α
  | 0, xs => xs
  | _ + 1, [] => []
  | fuel + 1, x :: rest =>
    if pred x then x :: bidirPartition pred fuel rest
    else
      match splitLastTrue pred rest with
      | none => x :: rest
      | some (pre, y, post) => y :: (bidirPartition pred fuel pre ++ x :: post)

/-- The deterministic median-selection model nthElem (a full sort by the
non-strict kd order from axis i) satisfies the nth_element contract: it
is one of its conforming refinements. -/
theorem nthElem_meets_contract {k : Nat} (i : Fin k) (seg : List (Tup k)) :
    NthElemPost i seg (nthElem i seg) = true := by
  rw [NthElemPost, Bool.and_eq_true, decide_eq_true_eq]
  refine ⟨nthElem_perm i seg, ?_⟩
  simp only [List.all_eq_true, Bool.not_eq_true']
  intro x hx y hy
  have hs : List.Pairwise (kdLe i) (nthElem i seg) := nthElem_sorted i seg
  rw [← List.take_append_drop (seg.length / 2) (nthElem i seg),
    List.pairwise_append] at hs
  exact hs.2.2 x hx y hy

/-- The deterministic re-partition model kdSortParts (the stable
filter-pair partition) satisfies the partition contract at the boundary
it produces: it is one of its conforming refinements. -/
theorem kdSortParts_meets_contract {k : Nat} (i : Fin k) (seg : List (Tup k)) :
    PartitionPost (fun x => kdLess i x (pivotVal i seg))
      ((nthElem i seg).take (seg.length / 2))
      ((kdSortParts i seg).1 ++ (kdSortParts i seg).2.1)
      (kdSortParts i seg).1.length = true := by
  rw [PartitionPost]
  simp only [Bool.and_eq_true, decide_eq_true_eq, List.all_eq_true, Bool.not_eq_true']
  refine ⟨⟨ts_append_fs_perm i seg, ?_⟩, ?_, ?_⟩
  · rw [List.length_append]
    exact Nat.le_add_right _ _
  · intro x hx
    rw [List.take_left] at hx
    exact ts_mem_lt i seg x hx
  · intro x hx
    rw [List.drop_left] at hx
    have hfs : (kdSortParts i seg).2.1 =
        ((nthElem i seg).take (seg.length / 2)).filter
          (fun x => !kdLess i x (pivotVal i seg)) := by
      rw [kdSortParts_eq]
    rw [hfs] at hx
    have h := (List.mem_filter.mp hx).2
    simpa using h

/-- A level state of kd_sort: a seven-element two-dimensional segment at
the root level (axis 0, midpos = 3) whose arrangement satisfies the
nth_element postcondition, so the contract allows the median selection to
leave exactly this arrangement; its prefix [first, midpos) holds a
duplicate of the pivot value (5,5) before two strictly smaller tuples. -/
def c8LevelState : List (Tup 2) :=
  [![5, 5], ![1, 1], ![2, 2], ![5, 5], ![6, 6], ![7, 7], ![8, 8]]

/-- C8 counterexample: a root level (axis 0) over seven points whose
arrangement already satisfies the nth_element contract — a state the
median selection may leave — holds in [first, midpos) a duplicate (5,5)
of the pivot value ahead of the two strictly smaller points (1,1) and
(2,2).  The bidirectional two-pointer partition run on this prefix is a
conforming re-partition (it satisfies PartitionPost at boundary 2), yet
it emits the strictly-less group as (2,2), (1,1) while that group in
prefix order is (1,1), (2,2): the relative order is not preserved, so
the split the program performs is not the claimed stable split. -/
theorem c8_partition_not_stable :
    NthElemPost (0 : Fin 2) c8LevelState c8LevelState = true ∧
    PartitionPost
      (fun x => kdLess (0 : Fin 2) x
        (c8LevelState.getD (midpos 0 c8LevelState.length) default))
      (c8LevelState.take (midpos 0 c8LevelState.length))
      (bidirPartition
        (fun x => kdLess (0 : Fin 2) x
          (c8LevelState.getD (midpos 0 c8LevelState.length) default))
        (c8LevelState.take (midpos 0 c8LevelState.length)).length
        (c8LevelState.take (midpos 0 c8LevelState.length))) 2 = true ∧
    (c8LevelState.take (midpos 0 c8LevelState.length)).filter
      (fun x => kdLess (0 : Fin 2) x
        (c8LevelState.getD (midpos 0 c8LevelState.length) default)) =
      [![1, 1], ![2, 2]] ∧
    bidirPartition
      (fun x => kdLess (0 : Fin 2) x
        (c8LevelState.getD (midpos 0 c8LevelState.length) default))
      (c8LevelState.take (midpos 0 c8LevelState.length)).length
      (c8LevelState.take (midpos 0 c8LevelState.length)) =
      [![2, 2], ![1, 1], ![5, 5]] :=
  ⟨by decide, by decide, by decide, by decide⟩

/-- C8: at each recursive level of kd_sort on a segment of length at
least 2, for every median selection meeting the nth_element contract and
every re-partition of the prefix [first, midpos) meeting the partition
contract with pred x = kd_less-from-i x pivot-value: the elements
strictly kd_less than the pivot value come first, every element from the
boundary on is a tuple equal to the pivot value, the new p equals the
number of strictly-less prefix elements — making it the first non-less
position — and the element left at p, when the equal group is nonempty,
is the pivot value.  The stability the claim adds on top of this —
preservation of the relative order inside the two groups — is not
guaranteed by either library contract and is refuted by the
counterexample above. -/
theorem c8_partition_split_contract {k : Nat} (i : Fin k)
    (seg sel ys : List (Tup k)) (p : Nat) (h2 : 2 ≤ seg.length)
    (hn : NthElemPost i seg sel = true)
    (hp : PartitionPost (fun x => kdLess i x (sel.getD (seg.length / 2) default))
      (sel.take (seg.length / 2)) ys p = true) :
    (∀ x ∈ ys.take p, kdLess i x (sel.getD (seg.length / 2) default) = true) ∧
    (∀ x ∈ ys.drop p, x = sel.getD (seg.length / 2) default) ∧
    p = ((sel.take (seg.length / 2)).filter
      (fun x => kdLess i x (sel.getD (seg.length / 2) default))).length ∧
    (p < ys.length → ys.getD p default = sel.getD (seg.length / 2) default) := by
  simp only [NthElemPost, Bool.and_eq_true, decide_eq_true_eq, List.all_eq_true,
    Bool.not_eq_true'] at hn
  obtain ⟨hnperm, hnall⟩ := hn
  simp only [PartitionPost, Bool.and_eq_true, decide_eq_true_eq, List.all_eq_true,
    Bool.not_eq_true'] at hp
  obtain ⟨⟨hperm, hple⟩, htake, hdrop⟩ := hp
  have hl2 := hnperm.length_eq
  have hdiv : seg.length / 2 < seg.length := Nat.div_lt_self (by omega) (by omega)
  have hpvmem : sel.getD (seg.length / 2) default ∈ sel.drop (seg.length / 2) := by
    have h0 := getD_drop_eq sel (seg.length / 2) 0 default (by omega)
    rw [Nat.add_zero] at h0
    rw [← h0]
    apply getD_mem
    rw [List.length_drop]
    omega
  have hc2 : ∀ x ∈ ys.drop p, x = sel.getD (seg.length / 2) default := by
    intro x hx
    have hxys : x ∈ ys := List.drop_subset p ys hx
    have hxm : x ∈ sel.take (seg.length / 2) := hperm.subset hxys
    exact kdLess_eq_of_incomp (hdrop x hx) (hnall x hxm _ hpvmem)
  refine ⟨htake, hc2, ?_, ?_⟩
  · have h1 : (ys.take p).filter
        (fun x => kdLess i x (sel.getD (seg.length / 2) default)) = ys.take p :=
      List.filter_eq_self.mpr htake
    have h0 : (ys.drop p).filter
        (fun x => kdLess i x (sel.getD (seg.length / 2) default)) = [] :=
      List.filter_eq_nil_iff.mpr
        (fun a ha => by simp only [hdrop a ha]; exact Bool.false_ne_true)
    have hsplit : ys.filter
        (fun x => kdLess i x (sel.getD (seg.length / 2) default)) = ys.take p := by
      calc ys.filter (fun x => kdLess i x (sel.getD (seg.length / 2) default))
          = (ys.take p ++ ys.drop p).filter
              (fun x => kdLess i x (sel.getD (seg.length / 2) default)) := by
            rw [List.take_append_drop]
        _ = ys.take p := by rw [List.filter_append, h1, h0, List.append_nil]
    have hlen := (List.Perm.filter
      (fun x => kdLess i x (sel.getD (seg.length / 2) default)) hperm).length_eq
    rw [hsplit, List.length_take] at hlen
    omega
  · intro hplt
    have h0 := getD_drop_eq ys p 0 default (by omega)
    rw [Nat.add_zero] at h0
    refine hc2 _ ?_
    rw [← h0]
    apply getD_mem
    rw [List.length_drop]
    omega

theorem c8_contract_witness :
    2 ≤ ([![1, 1], ![2, 2]] : List (Tup 2)).length ∧
    NthElemPost (0 : Fin 2) [![1, 1], ![2, 2]] [![1, 1], ![2, 2]] = true ∧
    PartitionPost
      (fun x => kdLess (0 : Fin 2) x
        (([![1, 1], ![2, 2]] : List (Tup 2)).getD
          (([![1, 1], ![2, 2]] : List (Tup 2)).length / 2) default))
      (([![1, 1], ![2, 2]] : List (Tup 2)).take
        (([![1, 1], ![2, 2]] : List (Tup 2)).length / 2))
      [![1, 1]] 1 = true ∧
    ((∀ x ∈ ([![1, 1]] : List (Tup 2)).take 1,
      kdLess (0 : Fin 2) x
        (([![1, 1], ![2, 2]] : List (Tup 2)).getD
          (([![1, 1], ![2, 2]] : List (Tup 2)).length / 2) default) = true) ∧
    (∀ x ∈ ([![1, 1]] : List (Tup 2)).drop 1,
      x = ([![1, 1], ![2, 2]] : List (Tup 2)).getD
        (([![1, 1], ![2, 2]] : List (Tup 2)).length / 2) default) ∧
    1 = ((([![1, 1], ![2, 2]] : List (Tup 2)).take
        (([![1, 1], ![2, 2]] : List (Tup 2)).length / 2)).filter
      (fun x => kdLess (0 : Fin 2) x
        (([![1, 1], ![2, 2]] : List (Tup 2)).getD
          (([![1, 1], ![2, 2]] : List (Tup 2)).length / 2) default))).length ∧
    (1 < ([![1, 1]] : List (Tup 2)).length →
      ([![1, 1]] : List (Tup 2)).getD 1 default =
        ([![1, 1], ![2, 2]] : List (Tup 2)).getD
          (([![1, 1], ![2, 2]] : List (Tup 2)).length / 2) default)) :=
  ⟨by decide, by decide, by decide,
    c8_partition_split_contract (0 : Fin 2) [![1, 1], ![2, 2]] [![1, 1], ![2, 2]]
      [![1, 1]] 1 (by decide) (by decide) (by decide)⟩

end Kdtools
